import Mathlib

/-!
Verification of the fp-growth repository (src/src/fp_growth.py, src/run.py).

The embedding models Python values as follows: items are `Nat`; Python dicts
(which preserve insertion order) are association lists `List (Nat × β)` with
first-match lookup, in-place update of an existing key and append of a new key;
the FP-tree is the inductive `Node`; tree nodes reachable from the root are
identified by their root path (the list of items from the root down to the
node), which is a faithful identification because sibling items are distinct
(`add_item_set` merges into an existing child instead of duplicating it); an
`ItemHeader`'s `pointers` set is modelled as the insertion-ordered list of the
registered node paths, with set semantics on insertion (`insertSet`).
Python's `sorted(..., key=..., reverse=True)` is a stable descending sort,
modelled by the stable insertion sort `sortDesc`.  `list(set(...))` has an
unspecified iteration order in Python; it is modelled by the deterministic
first-occurrence deduplication `pyDedup` (every claim settled below is
independent of that order).  Exceptions are modelled by `Except PyErr`.
-/

/-- Python exceptions raised by the code under `src/`: the `IndexError` from
`item_set[0]` on an empty list in `Tree.add_item_set`, and the `ValueError`
raised by `ItemHeaderTable.add_item_header_pointer` (the message string is
elided).  In Python's exception hierarchy `IndexError` and `KeyError` derive
from `LookupError`, while `ValueError` does not. -/
inductive PyErr : Type where
  | indexError : PyErr
  | valueError : PyErr
deriving DecidableEq, Repr

/-- Whether a Python exception belongs to the `LookupError` class hierarchy:
`IndexError` does, `ValueError` does not (fact of Python's builtin
exception taxonomy). -/
def PyErr.isLookupKind : PyErr → Bool
  | .indexError => true
  | .valueError => false

/-! ### Association lists with Python-dict semantics -/

/-- First-match lookup in an association list (Python `d[k]` / `k in d`). -/
def alookup {β : Type} : List (Nat × β) → Nat → Option β
  | [], _ => none
  | (k, v) :: t, key => if k = key then some v else alookup t key

/-- Python `k in d`. -/
def containKey {β : Type} (d : List (Nat × β)) (k : Nat) : Bool :=
  (alookup d k).isSome

/-- Python `d[k] = v`: overwrite in place if the key exists, else append. -/
def dictSet {β : Type} : List (Nat × β) → Nat → β → List (Nat × β)
  | [], key, v => [(key, v)]
  | (k, w) :: t, key, v =>
    if k = key then (k, v) :: t else (k, w) :: dictSet t key v

/-- Apply `g` to the value of the first entry with the given key (identity
when the key is absent; callers guard with `containKey`). -/
def modifyAssoc {β : Type} : List (Nat × β) → Nat → (β → β) → List (Nat × β)
  | [], _, _ => []
  | (k, v) :: t, key, g =>
    if k = key then (k, g v) :: t else (k, v) :: modifyAssoc t key g

/-- Python `d[k] = d[k] + w if k in d else w` (the counting idiom used both in
`_build_item_header_table` and `_build_conditional_pattern_bases`). -/
def addCount (d : List (Nat × Nat)) (k w : Nat) : List (Nat × Nat) :=
  match alookup d k with
  | some v => dictSet d k (v + w)
  | none => dictSet d k w

/-- Add `w` to the accumulator entry of every key in `ks`, in order. -/
def bumpAll (w : Nat) (ks : List Nat) (d : List (Nat × Nat)) : List (Nat × Nat) :=
  ks.foldl (fun d k => addCount d k w) d

/-- Lookup with default 0 (a present counter is never negative). -/
def lookupD (d : List (Nat × Nat)) (k : Nat) : Nat :=
  (alookup d k).getD 0

/-! ### Python `set` and `sorted` modelling -/

/-- Set-semantics insertion used for `ItemHeader.pointers.add`. -/
def insertSet {α : Type} [DecidableEq α] (l : List α) (a : α) : List α :=
  if a ∈ l then l else l ++ [a]

/-- Models `list(set(xs))`: duplicates collapsed, first occurrence kept.
Python's set iteration order is unspecified; every claim settled in this file
is independent of the order chosen here. -/
def pyDedup (l : List Nat) : List Nat :=
  l.foldl (fun acc x => if x ∈ acc then acc else acc ++ [x]) []

/-- Insert `a` into a descending-sorted list, after all elements whose key is
greater than or equal to `key a` (so the overall sort is stable). -/
def insDesc {α : Type} (key : α → Nat) (a : α) : List α → List α
  | [] => [a]
  | b :: l => if key b < key a then a :: b :: l else b :: insDesc key a l

/-- Stable descending sort by a `Nat` key: models Python's
`sorted(l, key=..., reverse=True)` (Python's sort is stable, and a stable sort
is determined by its key function). -/
def sortDesc {α : Type} (key : α → Nat) (l : List α) : List α :=
  l.foldl (fun acc a => insDesc key a acc) []

/-! ### itertools.combinations -/

/-- `combinations n l` models `itertools.combinations(l, n)`: all
subsequences of `l` of length `n`, in the order Python emits them. -/
def combinations : Nat → List Nat → List (List Nat)
  | 0, _ => [[]]
  | _ + 1, [] => []
  | n + 1, x :: xs =>
    (combinations n xs).map (fun c => x :: c) ++ combinations (n + 1) xs

/-- Concatenation of a list-valued map (accumulation with `+=` in Python). -/
def catMap {α β : Type} (g : α → List β) : List α → List β
  | [] => []
  | a :: l => g a ++ catMap g l

/-! ### The FP-tree (`Node`, `Tree.add_item_set`) -/

/-- `Node` of fp_growth.py: `item` (`none` only for the root), `frequency`,
and the ordered list of children.  The Python `parent` back-reference is not
stored: a node is identified by its root path, and the parent chain of the
node at path `q` carries exactly the items of `q.dropLast` (walked in reverse),
which is how `_build_conditional_pattern_bases` is rendered below. -/
inductive Node : Type where
  | mk (item : Option Nat) (frequency : Nat) (children : List Node)

/-- The node's item (None at the root). -/
def Node.item : Node → Option Nat
  | .mk it _ _ => it

/-- The node's support count. -/
def Node.frequency : Node → Nat
  | .mk _ f _ => f

/-- The node's children, in insertion order. -/
def Node.children : Node → List Node
  | .mk _ _ cs => cs

instance : Inhabited Node := ⟨Node.mk none 0 []⟩

/-- The scan in `Tree.add_item_set`: find the first child carrying `item`,
returned as a zipper (children before it, the child, children after it). -/
def splitAtItem : List Node → Nat → Option (List Node × Node × List Node)
  | [], _ => none
  | c :: cs, item =>
    if c.item = some item then some ([], c, cs)
    else
      match splitAtItem cs item with
      | some (pre, x, post) => some (c :: pre, x, post)
      | none => none

/-- One frequency increment (`child.frequency += 1`). -/
def bumpNode : Node → Node
  | .mk it f cs => .mk it (f + 1) cs

/-- `Tree.add_item_set(root, item_set)` for the non-empty item set
`item :: rest`: merge the sequence into the tree below `root`.  Returns the
updated subtree together with the paths (relative to `root`) of the newly
created nodes, in the order the Python generator yields them (a new node is
yielded before the recursion continues below it). -/
def addPath : Node → Nat → List Nat → Node × List (List Nat)
  | Node.mk it f cs, item, rest =>
    match splitAtItem cs item with
    | some (pre, c, post) =>
      match rest with
      | [] => (Node.mk it f (pre ++ [bumpNode c] ++ post), [])
      | r :: rs =>
        let p := addPath (bumpNode c) r rs
        (Node.mk it f (pre ++ [p.1] ++ post), p.2.map (fun q => item :: q))
    | none =>
      match rest with
      | [] => (Node.mk it f (cs ++ [Node.mk (some item) 1 []]), [[item]])
      | r :: rs =>
        let p := addPath (Node.mk (some item) 1 []) r rs
        (Node.mk it f (cs ++ [p.1]), [item] :: p.2.map (fun q => item :: q))

/-- First child carrying the given item (lookup counterpart of the scan). -/
def findChild : List Node → Nat → Option Node
  | [], _ => none
  | c :: cs, item => if c.item = some item then some c else findChild cs item

/-- Whether a node exists at path `q` below `n` (the empty path is `n`
itself). -/
def hasPath : Node → List Nat → Bool
  | _, [] => true
  | n, i :: q =>
    match findChild n.children i with
    | some c => hasPath c q
    | none => false

/-- The frequency of the node at path `q` below `n` (0 if absent). -/
def freqAt : Node → List Nat → Nat
  | n, [] => n.frequency
  | n, i :: q =>
    match findChild n.children i with
    | some c => freqAt c q
    | none => 0

mutual

/-- Root paths of all proper descendants of `n`, in child order. -/
def allPaths : Node → List (List Nat)
  | Node.mk _ _ cs => pathsOfChildren cs

/-- Root paths contributed by a list of children. -/
def pathsOfChildren : List Node → List (List Nat)
  | [] => []
  | c :: cs =>
    (match c.item with
     | some i => [i] :: (allPaths c).map (fun q => i :: q)
     | none => []) ++ pathsOfChildren cs

end

mutual

/-- Number of nodes of the tree rooted at `n` (the root included). -/
def countNodes : Node → Nat
  | Node.mk _ _ cs => 1 + countChildren cs

/-- Total node count of a list of subtrees. -/
def countChildren : List Node → Nat
  | [] => 0
  | c :: cs => countNodes c + countChildren cs

end

/-! ### ItemHeader / ItemHeaderTable -/

/-- `ItemHeader` of fp_growth.py; `pointers` is the set of registered tree
nodes, modelled as the insertion-ordered list of their root paths. -/
structure ItemHeader : Type where
  item : Nat
  frequency : Nat
  pointers : List (List Nat)
deriving DecidableEq, Repr

/-- A reference to a tree node as passed to `add_item_header_pointer`: the
node's item (`none` for the root) and its root path. -/
structure NodeRef : Type where
  item : Option Nat
  path : List Nat
deriving DecidableEq, Repr

/-- The `_table` dict of `ItemHeaderTable`. -/
abbrev Table := List (Nat × ItemHeader)

/-- `ItemHeaderTable.add(item, frequency)`: dict assignment of a fresh header
with an empty pointer set. -/
def tableAdd (t : Table) (item freqv : Nat) : Table :=
  dictSet t item (ItemHeader.mk item freqv [])

/-- `ItemHeaderTable.add_item_header_pointer(pointer)`: register the node in
the header matching its item, or raise `ValueError` when `pointer.item` is not
a key of the table (the root's `None` item is never a key). -/
def addItemHeaderPointer (t : Table) (r : NodeRef) : Except PyErr Table :=
  match r.item with
  | some i =>
    if containKey t i then
      Except.ok (modifyAssoc t i (fun h =>
        ItemHeader.mk h.item h.frequency (insertSet h.pointers r.path)))
    else Except.error PyErr.valueError
  | none => Except.error PyErr.valueError

/-- `ItemHeaderTable.get_table()`: the headers in insertion order. -/
def tableValues (t : Table) : List ItemHeader :=
  t.map (fun e => e.2)

/-- The stored frequency of an item (`self._table[item].frequency`); the
default 0 is never reached on the call sites, which filter to contained
items first. -/
def tableFreq (t : Table) (i : Nat) : Nat :=
  match alookup t i with
  | some h => h.frequency
  | none => 0

/-- `ItemHeaderTable.filter_and_sort_item_set`: drop the items absent from the
table, then stable-sort descending by stored frequency. -/
def filterAndSortItemSet (t : Table) (item_set : List Nat) : List Nat :=
  sortDesc (fun i => tableFreq t i) (item_set.filter (fun i => containKey t i))

/-! ### FpGrowth -/

/-- `FpGrowth._build_item_header_table`: count raw occurrences over the
(deduplicated) item sets, drop the counters below `min_support` (the snapshot
loop with `pop` keeps exactly the entries with count ≥ `min_support`, in
order), sort the survivors descending by count, and populate the table. -/
def buildItemHeaderTable (min_support : Nat) (item_sets : List (List Nat)) : Table :=
  let raw := item_sets.foldl (fun d l => bumpAll 1 l d) []
  let kept := raw.filter (fun kv => min_support ≤ kv.2)
  let sortedItems := sortDesc (fun kv => kv.2) kept
  sortedItems.foldl (fun t kv => tableAdd t kv.1 kv.2) []

/-- Register a batch of freshly created nodes
(the `for new_node in new_nodes` loop of `_build_tree`). -/
def registerNew (t : Table) : List (List Nat) → Except PyErr Table
  | [] => Except.ok t
  | q :: qs =>
    match addItemHeaderPointer t (NodeRef.mk q.getLast? q) with
    | Except.ok t' => registerNew t' qs
    | Except.error e => Except.error e

/-- One iteration of `_build_tree`: iterate the generator
`Tree.add_item_set(root, item_set)` — which evaluates `item_set[0]` and hence
raises `IndexError` on an empty item set — and register every yielded node. -/
def insertAndRegister (tree : Node) (t : Table) (item_set : List Nat) :
    Except PyErr (Node × Table) :=
  match item_set with
  | [] => Except.error PyErr.indexError
  | i :: rest =>
    let p := addPath tree i rest
    match registerNew t p.2 with
    | Except.ok t' => Except.ok (p.1, t')
    | Except.error e => Except.error e

/-- `FpGrowth._build_tree`: insert every (filtered, sorted) item set. -/
def buildTreeAll (tree : Node) (t : Table) : List (List Nat) → Except PyErr (Node × Table)
  | [] => Except.ok (tree, t)
  | l :: ls =>
    match insertAndRegister tree t l with
    | Except.ok st => buildTreeAll st.1 st.2 ls
    | Except.error e => Except.error e

/-- The conditional-pattern-base accumulator for one header: for every pointer
walk from the node's parent up to (excluding) the root — the items of
`q.dropLast`, nearest ancestor first — adding the node's own frequency for
each ancestor item encountered. -/
def condBaseRaw (tree : Node) (ptrs : List (List Nat)) : List (Nat × Nat) :=
  ptrs.foldl (fun b q => bumpAll (freqAt tree q) q.dropLast.reverse b) []

/-- The surviving keys of one header's conditional pattern base after the
second `min_support` filter. -/
def condBaseFor (tree : Node) (min_support : Nat) (h : ItemHeader) : List Nat :=
  ((condBaseRaw tree h.pointers).filter (fun kv => min_support ≤ kv.2)).map
    (fun kv => kv.1)

/-- `FpGrowth._build_conditional_pattern_bases`: headers processed in reverse
table order; an item with no surviving accumulator entry is omitted. -/
def buildCPB (tree : Node) (min_support : Nat) (t : Table) : List (Nat × List Nat) :=
  (tableValues t).reverse.foldl
    (fun cpb h =>
      let keys := condBaseFor tree min_support h
      if keys.isEmpty then cpb else dictSet cpb h.item keys) []

/-- The engine state after `FpGrowth.build` (`self.min_support`,
`self.item_header_table`, `self.tree`, `self.conditional_pattern_bases`). -/
structure FpState : Type where
  min_support : Nat
  item_header_table : Table
  tree : Node
  conditional_pattern_bases : List (Nat × List Nat)

instance : Inhabited FpState := ⟨⟨0, [], Node.mk none 0 [], []⟩⟩

/-- `FpGrowth.build(item_sets)`: dedup each set, build the header table,
filter-and-sort each set, build the tree (registering new nodes), then derive
the conditional pattern bases.  The `show()` calls are console output only and
are not modelled. -/
def fpBuild (min_support : Nat) (item_sets : List (List Nat)) : Except PyErr FpState :=
  let sets1 := item_sets.map pyDedup
  let table := buildItemHeaderTable min_support sets1
  let sets2 := sets1.map (fun l => filterAndSortItemSet table l)
  match buildTreeAll (Node.mk none 0 []) table sets2 with
  | Except.ok st =>
    Except.ok (FpState.mk min_support st.2 st.1
      (buildCPB st.1 min_support st.2))
  | Except.error e => Except.error e

/-- `FpGrowth._find_frequent_item_sets(item, base, min_item_count)`: for each
size `i` from 1 to `len(base)`, every `i`-combination of the base whose length
is at least `min_item_count - 1`, prefixed with the item. -/
def findFrequentItemSetsFor (item : Nat) (base : List Nat) (min_item_count : Nat) :
    List (List Nat) :=
  (List.range' 1 base.length).foldl
    (fun acc i =>
      acc ++ ((combinations i base).filter
        (fun c => min_item_count - 1 ≤ c.length)).map (fun c => item :: c)) []

/-- `FpGrowth.find_frequency_item_sets(min_item_count)`: concatenate the
per-item enumerations over the conditional-pattern-base mapping. -/
def findFrequencyItemSets (st : FpState) (min_item_count : Nat) : List (List Nat) :=
  st.conditional_pattern_bases.foldl
    (fun res kv => res ++ findFrequentItemSetsFor kv.1 kv.2 min_item_count) []

/-! ### The reference input (run.py) -/

/-- The ten item sets of run.py. -/
def refItemSets : List (List Nat) :=
  [[1, 2, 3, 4, 5],
   [5, 4, 3, 2, 1],
   [1, 2, 3, 4, 6],
   [1, 2, 3, 5],
   [1, 2, 3],
   [2],
   [2, 7],
   [2, 7],
   [2, 7],
   [2, 8]]

/-- The post-build state for the reference input with `min_support = 3`
(the build succeeds; see the claim theorems). -/
def refState3 : FpState :=
  match fpBuild 3 refItemSets with
  | Except.ok st => st
  | Except.error _ => default

/-- The post-build state for the reference input with `min_support = 4`. -/
def refState4 : FpState :=
  match fpBuild 4 refItemSets with
  | Except.ok st => st
  | Except.error _ => default

/-! ### Auxiliary predicates and spec-side definitions

The `spec…` definitions below are written from the specification's words (for
refinement claims) and are compared with the definitions above, which are
translated from the source. -/

/-- Initial-segment test: `q` is the first `q.length` elements of `l`. -/
def isegB (q l : List Nat) : Bool :=
  decide (l.take q.length = q)

/-- The non-empty initial segments of `l`, shortest first (the candidate node
paths an insertion of `l` touches). -/
def segsOf : List Nat → List (List Nat)
  | [] => []
  | a :: l => [a] :: (segsOf l).map (fun q => a :: q)

/-- Descending-sortedness by a `Nat` key. -/
def SortedDesc {α : Type} (key : α → Nat) (l : List α) : Prop :=
  l.Pairwise (fun a b => key b ≤ key a)

/-- A predicate closed upward along a key (raising the key preserves it). -/
def UpClosed {α : Type} (key : α → Nat) (p : α → Bool) : Prop :=
  ∀ a b, key a ≤ key b → p a = true → p b = true

/-- Spec-side child scan ("scan existing children for one whose item equals
the sequence's first item"), as a zipper. -/
def specScan (i : Nat) : List Node → Option (List Node × Node × List Node)
  | [] => none
  | c :: cs =>
    if c.item = some i then some ([], c, cs)
    else (specScan i cs).map (fun r => (c :: r.1, r.2.1, r.2.2))

/-- Spec-side insertion, following the words of the claim: if a child carrying
the first item exists, increment its frequency and descend; otherwise create a
child with frequency 1 carrying the first item, append it, report it as newly
created, and descend; recurse with the remaining subsequence until the
sequence is exhausted. -/
def specInsert : Node → List Nat → Node × List (List Nat)
  | n, [] => (n, [])
  | Node.mk it f cs, i :: rest =>
    match specScan i cs with
    | some (pre, c, post) =>
      let p := specInsert (Node.mk c.item (c.frequency + 1) c.children) rest
      (Node.mk it f (pre ++ p.1 :: post), p.2.map (fun q => i :: q))
    | none =>
      let p := specInsert (Node.mk (some i) 1 []) rest
      (Node.mk it f (cs ++ [p.1]), [i] :: p.2.map (fun q => i :: q))

/-- Spec-side conditional-pattern-base entry for one header, following the
words of the claim: for every node in the header's pointers set, walk upward
from the node's parent stopping before the root (the items of the node path's
`dropLast`, nearest ancestor first), adding the originating node's frequency
to the accumulator entry of each ancestor item; drop accumulated entries below
`min_support`; if any survive their keys form the base, otherwise the item is
omitted (`none`). -/
def specBaseEntry (tree : Node) (min_support : Nat) (ptrs : List (List Nat)) :
    Option (List Nat) :=
  let acc := ptrs.foldl
    (fun b q => (q.dropLast.reverse).foldl
      (fun b a => addCount b a (freqAt tree q)) b) []
  let kept := acc.filter (fun kv => min_support ≤ kv.2)
  if kept.isEmpty then none else some (kept.map (fun kv => kv.1))

/-- Spec-side enumeration, following the words of the claim: the
concatenation, over each item having a non-empty conditional pattern base `B`,
of `[item] ++ c` for every combination `c` of size `i` drawn from `B`, for
each size `i` from 1 to `|B|`, keeping only combinations of size at least
`min_item_count - 1`. -/
def specEnumerate (cpb : List (Nat × List Nat)) (min_item_count : Nat) :
    List (List Nat) :=
  catMap
    (fun kv =>
      if kv.2.isEmpty then []
      else
        catMap
          (fun i => ((combinations i kv.2).filter
              (fun c => min_item_count - 1 ≤ c.length)).map (fun c => kv.1 :: c))
          (List.range' 1 kv.2.length))
    cpb

/-- The pointer list of the header of item `x` (empty when absent). -/
def ptrsOf (t : Table) (x : Nat) : List (List Nat) :=
  match alookup t x with
  | some h => h.pointers
  | none => []

/-- Size of an item's conditional pattern base (0 when the item is absent
from the mapping). -/
def cpbSize (st : FpState) (x : Nat) : Nat :=
  match alookup st.conditional_pattern_bases x with
  | some b => b.length
  | none => 0

/-- The deduplicated item sets (first stage of `build`). -/
def fpDedups (item_sets : List (List Nat)) : List (List Nat) :=
  item_sets.map pyDedup

/-- The header table `build` constructs (second stage). -/
def fpTable0 (min_support : Nat) (item_sets : List (List Nat)) : Table :=
  buildItemHeaderTable min_support (fpDedups item_sets)

/-- The filtered-and-sorted sequences fed into tree construction
(third stage). -/
def fpSeqs (min_support : Nat) (item_sets : List (List Nat)) : List (List Nat) :=
  (fpDedups item_sets).map
    (fun l => filterAndSortItemSet (fpTable0 min_support item_sets) l)

/-- The number of deduplicated input item sets containing `x` (the raw
occurrence count of `_build_item_header_table`). -/
def itemCount (item_sets : List (List Nat)) (x : Nat) : Nat :=
  (fpDedups item_sets).countP (fun l => decide (x ∈ l))

/-- Invariant of the tree after inserting the sequences `seqsDone`: a
non-empty path exists iff it is an initial segment of some inserted sequence;
its frequency counts those sequences; and `allPaths` lists each existing
non-empty path exactly once, so `countNodes` is 1 plus their number. -/
structure TreeInv (tree : Node) (seqsDone : List (List Nat)) : Prop where
  path_iff : ∀ q, q ≠ [] →
    (hasPath tree q = true ↔ ∃ l ∈ seqsDone, isegB q l = true)
  freq_eq : ∀ q, q ≠ [] →
    freqAt tree q = seqsDone.countP (fun l => isegB q l)
  ap_nodup : (allPaths tree).Nodup
  ap_mem : ∀ q, q ∈ allPaths tree ↔ (q ≠ [] ∧ hasPath tree q = true)
  cnt : countNodes tree = 1 + (allPaths tree).length

/-- Invariant of the header table during tree construction, relative to the
freshly built table `base`: keys, items and frequencies never change, and
each header's pointer list holds exactly the existing tree paths ending in
its item, without duplicates. -/
structure TableInv (t : Table) (base : Table) (tree : Node) : Prop where
  shape : t.map (fun e => (e.1, e.2.item, e.2.frequency)) =
    base.map (fun e => (e.1, e.2.item, e.2.frequency))
  ptr_mem : ∀ x q, q ∈ ptrsOf t x ↔
    (q ≠ [] ∧ hasPath tree q = true ∧ q.getLast? = some x)
  ptr_nodup : ∀ x, (ptrsOf t x).Nodup

/-! ### Concrete claims on the reference input -/

/-- C4: an empty item-set collection indeed yields the empty header table, a
root-only tree, no conditional pattern bases and an empty enumeration; but a
non-empty collection all of whose items fall below `min_support` does NOT
yield that state: every such item set filters to the empty list, and iterating
the generator `Tree.add_item_set(root, [])` evaluates `item_set[0]` and raises
`IndexError`.  Evaluated here at the failing input `min_support = 3`,
`item_sets = [[1]]`. -/
theorem claimC4_eval :
    fpBuild 3 [] =
      Except.ok (FpState.mk 3 [] (Node.mk none 0 []) []) ∧
    findFrequencyItemSets (FpState.mk 3 [] (Node.mk none 0 []) []) 2 = [] ∧
    fpBuild 3 [[1]] = Except.error PyErr.indexError := by
  refine ⟨rfl, rfl, rfl⟩

/-- C6 counterexample: on the reference input with `min_support = 3` the root
of the built tree has exactly ONE child (item 2, frequency 10), not two; and
the enumeration with `min_item_count = 2` emits the pair anchored at item 1 as
`[1, 2]` — the list `[2, 1]` is not among the results (item 2 has an empty
conditional pattern base, so no result is anchored at 2). -/
theorem claimC6_cex :
    refState3.tree.children.length = 1 ∧ (1 : Nat) ≠ 2 ∧
    [2, 1] ∉ findFrequencyItemSets refState3 2 := by
  refine ⟨rfl, by decide, by decide⟩

/-- C6 (amended): after building the reference input with `min_support = 3`,
the root has exactly one child, rooted at item 2 with frequency 10 and nothing
else; the enumeration with `min_item_count = 2` includes the item-1/item-2
pair (emitted anchor-first as `[1, 2]`), and includes no item set containing
item 6 or item 8. -/
theorem claimC6_amended :
    fpBuild 3 refItemSets = Except.ok refState3 ∧
    refState3.tree.children.map (fun c => (c.item, c.frequency)) =
      [(some 2, 10)] ∧
    [1, 2] ∈ findFrequencyItemSets refState3 2 ∧
    ∀ l ∈ findFrequencyItemSets refState3 2, 6 ∉ l ∧ 8 ∉ l := by
  refine ⟨rfl, rfl, by decide, by decide⟩

/-- C7 counterexample: in the header table built from the reference input with
`min_support = 3`, item 4 has frequency 3 — it does NOT occur at least 4
times (and likewise item 5); the claim's "items 1, 3, 4, 5 occur ≥ 4 times"
is false for items 4 and 5. -/
theorem claimC7_cex :
    (alookup refState3.item_header_table 4).map (fun h => h.frequency) =
      some 3 ∧
    ¬ (4 ≤ 3) := by
  refine ⟨rfl, by decide⟩

/-- C7 (amended): the header table built from the reference input with
`min_support = 3` retains item 2 with frequency 10 ranked highest (first in
table order); item 7 survives with frequency 3; items 1 and 3 occur 5 times
each and items 4 and 5 occur 3 times each, all four surviving the filter; and
items 6 and 8 are filtered out entirely. -/
theorem claimC7_amended :
    (tableValues refState3.item_header_table).map
        (fun h => (h.item, h.frequency)) =
      [(2, 10), (1, 5), (3, 5), (4, 3), (5, 3), (7, 3)] ∧
    alookup refState3.item_header_table 6 = none ∧
    alookup refState3.item_header_table 8 = none := by
  refine ⟨rfl, rfl, rfl⟩

/-! ### Association-list lemmas -/

theorem alookup_dictSet_self {β : Type} (d : List (Nat × β)) (k : Nat) (v : β) :
    alookup (dictSet d k v) k = some v := by
  induction d with
  | nil => simp [dictSet, alookup]
  | cons e t ih =>
    obtain ⟨k', w⟩ := e
    by_cases h : k' = k <;> simp [dictSet, alookup, h, ih]

theorem alookup_dictSet_ne {β : Type} (d : List (Nat × β)) (k : Nat) (v : β)
    (k' : Nat) (h : k ≠ k') : alookup (dictSet d k v) k' = alookup d k' := by
  induction d with
  | nil => simp [dictSet, alookup, h]
  | cons e t ih =>
    obtain ⟨k'', w⟩ := e
    by_cases h2 : k'' = k
    · subst h2; simp [dictSet, alookup, h]
    · simp [dictSet, h2, alookup, ih]

theorem containKey_iff_mem {β : Type} (d : List (Nat × β)) (k : Nat) :
    containKey d k = true ↔ k ∈ d.map Prod.fst := by
  induction d with
  | nil => simp [containKey, alookup]
  | cons e t ih =>
    obtain ⟨k', w⟩ := e
    by_cases h : k' = k
    · subst h; simp [containKey, alookup]
    · have hstep : containKey ((k', w) :: t) k = containKey t k := by
        simp [containKey, alookup, h]
      rw [List.map_cons, hstep, ih]
      constructor
      · exact fun hm => List.mem_cons_of_mem _ hm
      · intro hm
        rcases List.mem_cons.1 hm with rfl | hm
        · exact absurd rfl h
        · exact hm

theorem dictSet_of_not_contained {β : Type} (d : List (Nat × β)) (k : Nat) (v : β)
    (h : containKey d k = false) : dictSet d k v = d ++ [(k, v)] := by
  induction d with
  | nil => simp [dictSet]
  | cons e t ih =>
    obtain ⟨k', w⟩ := e
    by_cases h2 : k' = k
    · subst h2; simp [containKey, alookup] at h
    · have h' : containKey t k = false := by
        simp [containKey, alookup, h2] at h
        simp [containKey, h]
      simp [dictSet, h2, ih h']

theorem map_fst_dictSet_of_contained {β : Type} (d : List (Nat × β)) (k : Nat)
    (v : β) (h : containKey d k = true) :
    (dictSet d k v).map Prod.fst = d.map Prod.fst := by
  induction d with
  | nil => simp [containKey, alookup] at h
  | cons e t ih =>
    obtain ⟨k', w⟩ := e
    by_cases h2 : k' = k
    · subst h2; simp [dictSet]
    · have h' : containKey t k = true := by
        simp [containKey, alookup, h2] at h
        simp [containKey, h]
      simp [dictSet, h2, ih h']

theorem map_fst_modifyAssoc {β : Type} (d : List (Nat × β)) (k : Nat) (g : β → β) :
    (modifyAssoc d k g).map Prod.fst = d.map Prod.fst := by
  induction d with
  | nil => simp [modifyAssoc]
  | cons e t ih =>
    obtain ⟨k', w⟩ := e
    by_cases h : k' = k <;> simp [modifyAssoc, h, ih]

theorem alookup_modifyAssoc_self {β : Type} (d : List (Nat × β)) (k : Nat)
    (g : β → β) : alookup (modifyAssoc d k g) k = (alookup d k).map g := by
  induction d with
  | nil => simp [modifyAssoc, alookup]
  | cons e t ih =>
    obtain ⟨k', w⟩ := e
    by_cases h : k' = k <;> simp [modifyAssoc, alookup, h, ih]

theorem alookup_modifyAssoc_ne {β : Type} (d : List (Nat × β)) (k : Nat)
    (g : β → β) (k' : Nat) (h : k ≠ k') :
    alookup (modifyAssoc d k g) k' = alookup d k' := by
  induction d with
  | nil => simp [modifyAssoc]
  | cons e t ih =>
    obtain ⟨k'', w⟩ := e
    by_cases h2 : k'' = k
    · subst h2; simp [modifyAssoc, alookup, h]
    · simp [modifyAssoc, h2, alookup, ih]

theorem mem_of_alookup_eq_some {β : Type} {d : List (Nat × β)} {k : Nat} {v : β}
    (h : alookup d k = some v) : (k, v) ∈ d := by
  induction d with
  | nil => simp [alookup] at h
  | cons e t ih =>
    obtain ⟨k', w⟩ := e
    by_cases h2 : k' = k
    · subst h2; simp [alookup] at h; simp [h]
    · simp [alookup, h2] at h
      exact List.mem_cons_of_mem _ (ih h)

theorem alookup_eq_some_of_mem {β : Type} {d : List (Nat × β)} {k : Nat} {v : β}
    (hnd : (d.map Prod.fst).Nodup) (h : (k, v) ∈ d) : alookup d k = some v := by
  induction d with
  | nil => simp at h
  | cons e t ih =>
    obtain ⟨k', w⟩ := e
    rw [List.map_cons, List.nodup_cons] at hnd
    rcases List.mem_cons.1 h with h1 | h1
    · obtain ⟨rfl, rfl⟩ := Prod.mk.inj h1
      simp [alookup]
    · by_cases hk : k' = k
      · subst hk
        exact absurd (List.mem_map.2 ⟨(k', v), h1, rfl⟩) hnd.1
      · simp only [alookup, if_neg hk]
        exact ih hnd.2 h1

theorem containKey_of_lookupD_pos {d : List (Nat × Nat)} {k : Nat}
    (h : 0 < lookupD d k) : containKey d k = true := by
  unfold lookupD at h
  unfold containKey
  cases hl : alookup d k with
  | none => rw [hl] at h; simp at h
  | some v => simp

theorem lookupD_addCount (d : List (Nat × Nat)) (k w a : Nat) :
    lookupD (addCount d k w) a = lookupD d a + if k = a then w else 0 := by
  unfold addCount
  by_cases h : k = a
  · subst h
    cases hl : alookup d k with
    | none => simp [lookupD, hl, alookup_dictSet_self]
    | some v => simp [lookupD, hl, alookup_dictSet_self]
  · cases hl : alookup d k with
    | none => simp [lookupD, alookup_dictSet_ne d k w a h, h]
    | some v => simp [lookupD, alookup_dictSet_ne d k (v + w) a h, h]

theorem containKey_addCount (d : List (Nat × Nat)) (k w a : Nat) :
    containKey (addCount d k w) a = (containKey d a || decide (k = a)) := by
  unfold addCount
  by_cases h : k = a
  · subst h
    cases hl : alookup d k with
    | none => simp [containKey, alookup_dictSet_self]
    | some v => simp [containKey, alookup_dictSet_self]
  · cases hl : alookup d k with
    | none => simp [containKey, alookup_dictSet_ne d k w a h, h]
    | some v => simp [containKey, alookup_dictSet_ne d k (v + w) a h, h]

theorem keys_nodup_dictSet {β : Type} (d : List (Nat × β)) (k : Nat) (v : β)
    (hnd : (d.map Prod.fst).Nodup) : ((dictSet d k v).map Prod.fst).Nodup := by
  cases hc : containKey d k with
  | true => rw [map_fst_dictSet_of_contained d k v hc]; exact hnd
  | false =>
    rw [dictSet_of_not_contained d k v hc]
    simp only [List.map_append, List.map_cons, List.map_nil]
    rw [List.nodup_append]
    refine ⟨hnd, by simp, ?_⟩
    intro x hx hx2
    simp only [List.mem_singleton] at hx2
    subst hx2
    exact absurd ((containKey_iff_mem d x).2 hx) (by simp [hc])

theorem keys_nodup_addCount (d : List (Nat × Nat)) (k w : Nat)
    (hnd : (d.map Prod.fst).Nodup) : ((addCount d k w).map Prod.fst).Nodup := by
  unfold addCount
  cases alookup d k with
  | none => exact keys_nodup_dictSet d k w hnd
  | some v => exact keys_nodup_dictSet d k (v + w) hnd

theorem lookupD_bumpAll (w : Nat) (ks : List Nat) (d : List (Nat × Nat)) (a : Nat) :
    lookupD (bumpAll w ks d) a = lookupD d a + w * ks.count a := by
  induction ks generalizing d with
  | nil => simp [bumpAll]
  | cons k ks ih =>
    show lookupD (bumpAll w ks (addCount d k w)) a = _
    rw [ih, lookupD_addCount]
    by_cases h : k = a <;>
      simp [List.count_cons, h, Nat.mul_add, Nat.mul_succ] <;> omega

theorem containKey_bumpAll (w : Nat) (ks : List Nat) (d : List (Nat × Nat)) (a : Nat) :
    containKey (bumpAll w ks d) a = (containKey d a || decide (a ∈ ks)) := by
  induction ks generalizing d with
  | nil => simp [bumpAll]
  | cons k ks ih =>
    show containKey (bumpAll w ks (addCount d k w)) a = _
    rw [ih, containKey_addCount]
    by_cases h : k = a
    · subst h; simp
    · have h' : ¬ a = k := fun hh => h hh.symm
      simp [h, h']

theorem keys_nodup_bumpAll (w : Nat) (ks : List Nat) (d : List (Nat × Nat))
    (hnd : (d.map Prod.fst).Nodup) : ((bumpAll w ks d).map Prod.fst).Nodup := by
  induction ks generalizing d with
  | nil => exact hnd
  | cons k ks ih => exact ih _ (keys_nodup_addCount d k w hnd)

theorem insertSet_of_not_mem {α : Type} [DecidableEq α] {l : List α} {a : α}
    (h : a ∉ l) : insertSet l a = l ++ [a] := by
  simp [insertSet, h]

theorem mem_catMap {α β : Type} (g : α → List β) (l : List α) (b : β) :
    b ∈ catMap g l ↔ ∃ a ∈ l, b ∈ g a := by
  induction l with
  | nil => simp [catMap]
  | cons x xs ih => simp [catMap, ih]

theorem foldl_append_catMap {α β : Type} (g : α → List β) (l : List α)
    (init : List β) :
    l.foldl (fun acc a => acc ++ g a) init = init ++ catMap g l := by
  induction l generalizing init with
  | nil => simp [catMap]
  | cons x xs ih => simp [catMap, ih, List.append_assoc]

theorem pyDedup_aux (l acc : List Nat) (hnd : acc.Nodup) :
    (l.foldl (fun acc x => if x ∈ acc then acc else acc ++ [x]) acc).Nodup ∧
    ∀ x, x ∈ l.foldl (fun acc x => if x ∈ acc then acc else acc ++ [x]) acc ↔
      (x ∈ acc ∨ x ∈ l) := by
  induction l generalizing acc with
  | nil => simpa using hnd
  | cons a l ih =>
    by_cases h : a ∈ acc
    · have := ih acc hnd
      simp only [List.foldl_cons, if_pos h]
      refine ⟨this.1, fun x => ?_⟩
      rw [this.2 x]
      constructor
      · rintro (hx | hx)
        · exact Or.inl hx
        · exact Or.inr (List.mem_cons_of_mem _ hx)
      · rintro (hx | hx)
        · exact Or.inl hx
        · rcases List.mem_cons.1 hx with rfl | hx
          · exact Or.inl h
          · exact Or.inr hx
    · have hnd2 : (acc ++ [a]).Nodup := by
        rw [List.nodup_append]
        refine ⟨hnd, by simp, ?_⟩
        intro x hx hx2
        simp only [List.mem_singleton] at hx2
        subst hx2
        exact h hx
      have := ih (acc ++ [a]) hnd2
      simp only [List.foldl_cons, if_neg h]
      refine ⟨this.1, fun x => ?_⟩
      rw [this.2 x]
      simp only [List.mem_append, List.mem_singleton, List.mem_cons]
      tauto

theorem pyDedup_nodup (l : List Nat) : (pyDedup l).Nodup :=
  (pyDedup_aux l [] (by simp)).1

theorem mem_pyDedup (l : List Nat) (x : Nat) : x ∈ pyDedup l ↔ x ∈ l := by
  rw [pyDedup, (pyDedup_aux l [] (by simp)).2 x]
  simp


/-! ### Sorting lemmas -/

theorem insDesc_perm {α : Type} (key : α → Nat) (a : α) (l : List α) :
    List.Perm (insDesc key a l) (a :: l) := by
  induction l with
  | nil => simp [insDesc]
  | cons b l ih =>
    by_cases h : key b < key a
    · simp [insDesc, h]
    · simp only [insDesc, if_neg h]
      exact (ih.cons b).trans (List.Perm.swap a b l)

theorem sortDesc_perm_aux {α : Type} (key : α → Nat) (l acc : List α) :
    List.Perm (l.foldl (fun acc a => insDesc key a acc) acc) (l ++ acc) := by
  induction l generalizing acc with
  | nil => simp
  | cons a l ih =>
    have h1 : List.Perm (l.foldl (fun acc a => insDesc key a acc) (insDesc key a acc))
        (l ++ insDesc key a acc) := ih _
    have h2 : List.Perm (l ++ insDesc key a acc) (l ++ a :: acc) :=
      List.Perm.append_left l (insDesc_perm key a acc)
    rw [List.cons_append]
    exact (h1.trans h2).trans List.perm_middle

theorem sortDesc_perm {α : Type} (key : α → Nat) (l : List α) :
    List.Perm (sortDesc key l) l := by
  simpa using sortDesc_perm_aux key l []

theorem mem_sortDesc {α : Type} (key : α → Nat) (l : List α) (a : α) :
    a ∈ sortDesc key l ↔ a ∈ l :=
  (sortDesc_perm key l).mem_iff

theorem sortedDesc_insDesc {α : Type} (key : α → Nat) (a : α) (l : List α)
    (hs : SortedDesc key l) : SortedDesc key (insDesc key a l) := by
  induction l with
  | nil => simp [insDesc, SortedDesc]
  | cons b l ih =>
    rw [SortedDesc, List.pairwise_cons] at hs
    by_cases h : key b < key a
    · simp only [insDesc, if_pos h]
      rw [SortedDesc, List.pairwise_cons]
      constructor
      · intro c hc
        rcases List.mem_cons.1 hc with rfl | hc
        · exact Nat.le_of_lt h
        · exact Nat.le_trans (hs.1 c hc) (Nat.le_of_lt h)
      · exact List.Pairwise.cons hs.1 hs.2
    · simp only [insDesc, if_neg h]
      rw [SortedDesc, List.pairwise_cons]
      refine ⟨?_, ih hs.2⟩
      intro c hc
      rcases List.mem_cons.1 ((insDesc_perm key a l).mem_iff.1 hc) with rfl | hc
      · exact Nat.le_of_not_lt h
      · exact hs.1 c hc

theorem sortDesc_sorted_aux {α : Type} (key : α → Nat) (l acc : List α)
    (hs : SortedDesc key acc) :
    SortedDesc key (l.foldl (fun acc a => insDesc key a acc) acc) := by
  induction l generalizing acc with
  | nil => exact hs
  | cons a l ih => exact ih _ (sortedDesc_insDesc key a acc hs)

theorem sortDesc_sorted {α : Type} (key : α → Nat) (l : List α) :
    SortedDesc key (sortDesc key l) :=
  sortDesc_sorted_aux key l [] (by simp [SortedDesc])

theorem insDesc_congr {α : Type} (k1 k2 : α → Nat) (a : α) (l : List α)
    (ha : k1 a = k2 a) (hl : ∀ b ∈ l, k1 b = k2 b) :
    insDesc k1 a l = insDesc k2 a l := by
  induction l with
  | nil => simp [insDesc]
  | cons b l ih =>
    have hb : k1 b = k2 b := hl b (by simp)
    by_cases h : k1 b < k1 a
    · simp only [insDesc, if_pos h, if_pos (hb ▸ ha ▸ h)]
    · rw [show insDesc k1 a (b :: l) = b :: insDesc k1 a l by
        simp [insDesc, h]]
      rw [show insDesc k2 a (b :: l) = b :: insDesc k2 a l by
        simp [insDesc, hb ▸ ha ▸ h]]
      rw [ih (fun c hc => hl c (List.mem_cons_of_mem _ hc))]

theorem sortDesc_congr_aux {α : Type} (k1 k2 : α → Nat) (l acc : List α)
    (hl : ∀ b ∈ l, k1 b = k2 b) (hacc : ∀ b ∈ acc, k1 b = k2 b) :
    l.foldl (fun acc a => insDesc k1 a acc) acc =
      l.foldl (fun acc a => insDesc k2 a acc) acc := by
  induction l generalizing acc with
  | nil => rfl
  | cons a l ih =>
    have ha : k1 a = k2 a := hl a (by simp)
    simp only [List.foldl_cons]
    rw [insDesc_congr k1 k2 a acc ha hacc]
    exact ih _ (fun b hb => hl b (List.mem_cons_of_mem _ hb))
      (fun b hb => by
        rcases List.mem_cons.1 ((insDesc_perm k2 a acc).mem_iff.1 hb) with rfl | hb
        · exact ha
        · exact hacc b hb)

theorem sortDesc_congr {α : Type} (k1 k2 : α → Nat) (l : List α)
    (hl : ∀ b ∈ l, k1 b = k2 b) : sortDesc k1 l = sortDesc k2 l :=
  sortDesc_congr_aux k1 k2 l [] hl (by simp)

theorem insDesc_of_forall_lt {α : Type} (key : α → Nat) (a : α) (l : List α)
    (h : ∀ b ∈ l, key b < key a) : insDesc key a l = a :: l := by
  cases l with
  | nil => rfl
  | cons b l => simp [insDesc, h b (by simp)]

theorem filter_insDesc_pos {α : Type} (key : α → Nat) (p : α → Bool) (a : α)
    (l : List α) (hup : UpClosed key p) (hpa : p a = true)
    (hs : SortedDesc key l) :
    (insDesc key a l).filter p = insDesc key a (l.filter p) := by
  induction l with
  | nil => simp [insDesc, hpa]
  | cons b l ih =>
    rw [SortedDesc, List.pairwise_cons] at hs
    by_cases h : key b < key a
    · rw [show insDesc key a (b :: l) = a :: b :: l by simp [insDesc, h]]
      have hlt : ∀ c ∈ (b :: l).filter p, key c < key a := by
        intro c hc
        rcases List.mem_cons.1 (List.mem_of_mem_filter hc) with rfl | hc2
        · exact h
        · exact Nat.lt_of_le_of_lt (hs.1 c hc2) h
      rw [insDesc_of_forall_lt key a _ hlt]
      simp [List.filter_cons, hpa]
    · have hpb : p b = true := hup a b (Nat.le_of_not_lt h) hpa
      rw [show insDesc key a (b :: l) = b :: insDesc key a l by
        simp [insDesc, h]]
      rw [List.filter_cons, if_pos hpb, List.filter_cons, if_pos hpb]
      rw [show insDesc key a (b :: l.filter p) = b :: insDesc key a (l.filter p) by
        simp [insDesc, h]]
      rw [ih hs.2]

theorem filter_insDesc_neg {α : Type} (key : α → Nat) (p : α → Bool) (a : α)
    (l : List α) (hpa : p a = false) :
    (insDesc key a l).filter p = l.filter p := by
  induction l with
  | nil => simp [insDesc, hpa]
  | cons b l ih =>
    by_cases h : key b < key a
    · rw [show insDesc key a (b :: l) = a :: b :: l by simp [insDesc, h]]
      simp [List.filter_cons, hpa]
    · rw [show insDesc key a (b :: l) = b :: insDesc key a l by
        simp [insDesc, h]]
      rw [List.filter_cons, List.filter_cons, ih]

theorem sortDesc_filter_aux {α : Type} (key : α → Nat) (p : α → Bool)
    (hup : UpClosed key p) (l acc : List α) (hs : SortedDesc key acc) :
    (l.filter p).foldl (fun acc a => insDesc key a acc) (acc.filter p) =
      (l.foldl (fun acc a => insDesc key a acc) acc).filter p := by
  induction l generalizing acc with
  | nil => rfl
  | cons a l ih =>
    by_cases hpa : p a
    · rw [List.filter_cons, if_pos hpa]
      simp only [List.foldl_cons]
      rw [show insDesc key a (acc.filter p) = (insDesc key a acc).filter p from
        (filter_insDesc_pos key p a acc hup hpa hs).symm]
      exact ih (insDesc key a acc) (sortedDesc_insDesc key a acc hs)
    · rw [List.filter_cons, if_neg (by simpa using hpa)]
      simp only [List.foldl_cons]
      rw [show acc.filter p = (insDesc key a acc).filter p from
        (filter_insDesc_neg key p a acc (by simpa using hpa)).symm]
      exact ih (insDesc key a acc) (sortedDesc_insDesc key a acc hs)

theorem sortDesc_filter {α : Type} (key : α → Nat) (p : α → Bool)
    (hup : UpClosed key p) (l : List α) :
    sortDesc key (l.filter p) = (sortDesc key l).filter p := by
  simpa using sortDesc_filter_aux key p hup l [] (by simp [SortedDesc])

theorem sorted_filter_decomp {α : Type} (key : α → Nat) (p : α → Bool)
    (l : List α) (hs : SortedDesc key l) (hup : UpClosed key p) :
    ∃ rest, l = l.filter p ++ rest ∧ ∀ c ∈ rest, p c = false := by
  induction l with
  | nil => exact ⟨[], by simp⟩
  | cons b l ih =>
    rw [SortedDesc, List.pairwise_cons] at hs
    by_cases hpb : p b
    · obtain ⟨rest, hrest, hall⟩ := ih hs.2
      refine ⟨rest, ?_, hall⟩
      rw [List.filter_cons, if_pos hpb]
      rw [List.cons_append, ← hrest]
    · have hallf : ∀ c ∈ l, p c = false := by
        intro c hc
        cases hpc : p c with
        | false => rfl
        | true =>
          exact absurd (hup c b (hs.1 c hc) hpc) (by simpa using hpb)
      have : (b :: l).filter p = [] := by
        rw [List.filter_cons, if_neg (by simpa using hpb)]
        exact List.filter_eq_nil_iff.2 (fun c hc => by simp [hallf c hc])
      refine ⟨b :: l, by rw [this]; simp, ?_⟩
      intro c hc
      rcases List.mem_cons.1 hc with rfl | hc
      · simpa using hpb
      · exact hallf c hc

/-! ### Combinations, initial segments -/

theorem length_of_mem_combinations {n : Nat} {l c : List Nat}
    (h : c ∈ combinations n l) : c.length = n := by
  induction l generalizing n c with
  | nil =>
    cases n with
    | zero => simp [combinations] at h; simp [h]
    | succ n => simp [combinations] at h
  | cons x xs ih =>
    cases n with
    | zero => simp [combinations] at h; simp [h]
    | succ n =>
      rw [combinations, List.mem_append] at h
      rcases h with h | h
      · obtain ⟨c', hc', rfl⟩ := List.mem_map.1 h
        simp [ih hc']
      · exact ih h

theorem sublist_of_mem_combinations {n : Nat} {l c : List Nat}
    (h : c ∈ combinations n l) : c.Sublist l := by
  induction l generalizing n c with
  | nil =>
    cases n with
    | zero => simp [combinations] at h; simp [h]
    | succ n => simp [combinations] at h
  | cons x xs ih =>
    cases n with
    | zero => simp [combinations] at h; simp [h]
    | succ n =>
      rw [combinations, List.mem_append] at h
      rcases h with h | h
      · obtain ⟨c', hc', rfl⟩ := List.mem_map.1 h
        exact List.Sublist.cons₂ x (ih hc')
      · exact List.Sublist.cons x (ih h)

theorem isegB_iff (q l : List Nat) : isegB q l = true ↔ ∃ t, q ++ t = l := by
  unfold isegB
  rw [decide_eq_true_iff]
  constructor
  · intro h
    refine ⟨l.drop q.length, ?_⟩
    nth_rewrite 1 [← h]
    exact List.take_append_drop _ _
  · rintro ⟨t, rfl⟩
    simp [List.take_append_of_le_length (Nat.le_refl q.length)]

theorem isegB_refl (l : List Nat) : isegB l l = true := by
  rw [isegB_iff]; exact ⟨[], by simp⟩

theorem isegB_nil (l : List Nat) : isegB [] l = true := by
  rw [isegB_iff]; exact ⟨l, rfl⟩

theorem isegB_trans {q r l : List Nat} (h1 : isegB q r = true)
    (h2 : isegB r l = true) : isegB q l = true := by
  rw [isegB_iff] at h1 h2 ⊢
  obtain ⟨t1, rfl⟩ := h1
  obtain ⟨t2, rfl⟩ := h2
  exact ⟨t1 ++ t2, by simp⟩

theorem isegB_cons_cons (a b : Nat) (q l : List Nat) :
    isegB (a :: q) (b :: l) = true ↔ (b = a ∧ isegB q l = true) := by
  rw [isegB_iff, isegB_iff]
  constructor
  · rintro ⟨t, ht⟩
    rw [List.cons_append] at ht
    obtain ⟨hb, hl⟩ := List.cons.inj ht
    exact ⟨hb.symm, ⟨t, hl⟩⟩
  · rintro ⟨rfl, t, rfl⟩
    exact ⟨t, rfl⟩

theorem isegB_cons_nil (a : Nat) (q : List Nat) :
    isegB (a :: q) [] = false := by
  cases h : isegB (a :: q) [] with
  | false => rfl
  | true =>
    obtain ⟨t, ht⟩ := (isegB_iff _ _).1 h
    simp at ht

theorem sublist_of_isegB {q l : List Nat} (h : isegB q l = true) :
    q.Sublist l := by
  obtain ⟨t, rfl⟩ := (isegB_iff _ _).1 h
  exact List.sublist_append_left q t

theorem mem_of_isegB {q l : List Nat} {x : Nat} (h : isegB q l = true)
    (hx : x ∈ q) : x ∈ l :=
  (sublist_of_isegB h).mem hx

theorem mem_segsOf (q l : List Nat) :
    q ∈ segsOf l ↔ (q ≠ [] ∧ isegB q l = true) := by
  induction l generalizing q with
  | nil =>
    simp only [segsOf, List.not_mem_nil, false_iff]
    rintro ⟨hne, hseg⟩
    cases q with
    | nil => exact hne rfl
    | cons a q => rw [isegB_cons_nil] at hseg; exact absurd hseg (by simp)
  | cons a l ih =>
    rw [segsOf, List.mem_cons]
    constructor
    · rintro (rfl | h)
      · refine ⟨by simp, ?_⟩
        rw [isegB_cons_cons]
        exact ⟨rfl, isegB_nil l⟩
      · obtain ⟨q', hq', rfl⟩ := List.mem_map.1 h
        have := (ih q').1 hq'
        refine ⟨by simp, ?_⟩
        rw [isegB_cons_cons]
        exact ⟨rfl, this.2⟩
    · rintro ⟨hne, hseg⟩
      cases q with
      | nil => exact absurd rfl hne
      | cons b q' =>
        rw [isegB_cons_cons] at hseg
        obtain ⟨rfl, hseg⟩ := hseg
        cases q' with
        | nil => exact Or.inl rfl
        | cons c q'' =>
          refine Or.inr (List.mem_map.2 ⟨c :: q'', ?_, rfl⟩)
          exact (ih _).2 ⟨by simp, hseg⟩

theorem nil_not_mem_segsOf (l : List Nat) : [] ∉ segsOf l := by
  intro h
  exact ((mem_segsOf [] l).1 h).1 rfl

theorem segsOf_nodup (l : List Nat) : (segsOf l).Nodup := by
  induction l with
  | nil => simp [segsOf]
  | cons a l ih =>
    rw [segsOf, List.nodup_cons]
    constructor
    · intro h
      obtain ⟨q, hq, hq2⟩ := List.mem_map.1 h
      cases q with
      | nil => exact nil_not_mem_segsOf l hq
      | cons b q' => simp at hq2
    · exact List.Nodup.map (fun x y h => by simpa using h) ih

theorem getLastQ_decomp {l : List Nat} {x : Nat} (h : l.getLast? = some x) :
    ∃ a, l = a ++ [x] := by
  induction l with
  | nil => simp at h
  | cons b l ih =>
    cases l with
    | nil =>
      simp [List.getLast?] at h
      exact ⟨[], by simp [h]⟩
    | cons c l' =>
      rw [List.getLast?_cons_cons] at h
      obtain ⟨a, ha⟩ := ih h
      exact ⟨b :: a, by rw [List.cons_append, ← ha]⟩

theorem getLastQ_mem {l : List Nat} {x : Nat} (h : l.getLast? = some x) :
    x ∈ l := by
  obtain ⟨a, rfl⟩ := getLastQ_decomp h
  simp

theorem length_le_of_nodup_subset {α : Type} [DecidableEq α] {l1 l2 : List α}
    (h1 : l1.Nodup) (hsub : l1 ⊆ l2) : l1.length ≤ l2.length := by
  calc l1.length = l1.toFinset.card := (List.toFinset_card_of_nodup h1).symm
    _ ≤ l2.toFinset.card := Finset.card_le_card (fun a ha => by
        rw [List.mem_toFinset] at ha ⊢
        exact hsub ha)
    _ ≤ l2.length := List.toFinset_card_le l2

theorem perm_of_nodup_mem_iff {α : Type} {l1 l2 : List α} (h1 : l1.Nodup)
    (h2 : l2.Nodup) (hmem : ∀ a, a ∈ l1 ↔ a ∈ l2) : List.Perm l1 l2 :=
  (List.perm_ext_iff_of_nodup h1 h2).2 hmem

/-! ### Claim C1: enumeration refinement and size bound -/

theorem catMap_congr {α β : Type} {f g : α → List β} {l : List α}
    (h : ∀ a ∈ l, f a = g a) : catMap f l = catMap g l := by
  induction l with
  | nil => rfl
  | cons a l ih =>
    rw [catMap, catMap, h a (by simp), ih (fun a ha => h a (List.mem_cons_of_mem _ ha))]

theorem findFrequencyItemSets_eq_catMap (st : FpState) (mic : Nat) :
    findFrequencyItemSets st mic =
      catMap (fun kv => findFrequentItemSetsFor kv.1 kv.2 mic)
        st.conditional_pattern_bases := by
  unfold findFrequencyItemSets
  rw [foldl_append_catMap]
  simp

theorem findFrequentItemSetsFor_eq_catMap (item : Nat) (base : List Nat) (mic : Nat) :
    findFrequentItemSetsFor item base mic =
      catMap (fun i => ((combinations i base).filter
          (fun c => mic - 1 ≤ c.length)).map (fun c => item :: c))
        (List.range' 1 base.length) := by
  unfold findFrequentItemSetsFor
  rw [foldl_append_catMap]
  simp

/-- C1: the frequent-item-set enumeration on a post-build state is exactly the
specification's concatenation — over each item with a non-empty conditional
pattern base `B`, of `[item] ++ c` for every combination `c` of size `i` from
`B` (`i` from 1 to `|B|`) whose size is at least `min_item_count - 1` — and
consequently every returned item set has length at least `min_item_count`. -/
theorem claimC1 (min_support : Nat) (item_sets : List (List Nat)) (mic : Nat)
    (st : FpState) (hb : fpBuild min_support item_sets = Except.ok st)
    (hmic : 1 ≤ mic) :
    findFrequencyItemSets st mic =
      specEnumerate st.conditional_pattern_bases mic ∧
    ∀ l ∈ findFrequencyItemSets st mic, mic ≤ l.length := by
  have hentry : ∀ kv : Nat × List Nat,
      findFrequentItemSetsFor kv.1 kv.2 mic =
        (if kv.2.isEmpty then [] else
          catMap (fun i => ((combinations i kv.2).filter
              (fun c => mic - 1 ≤ c.length)).map (fun c => kv.1 :: c))
            (List.range' 1 kv.2.length)) := by
    intro kv
    rw [findFrequentItemSetsFor_eq_catMap]
    cases hk : kv.2 with
    | nil => simp [catMap]
    | cons b bs => simp
  constructor
  · rw [findFrequencyItemSets_eq_catMap, specEnumerate]
    exact catMap_congr (fun kv _ => hentry kv)
  · intro l hl
    rw [findFrequencyItemSets_eq_catMap] at hl
    obtain ⟨kv, _, hl⟩ := (mem_catMap _ _ l).1 hl
    rw [findFrequentItemSetsFor_eq_catMap] at hl
    obtain ⟨i, _, hl⟩ := (mem_catMap _ _ l).1 hl
    obtain ⟨c, hc, rfl⟩ := List.mem_map.1 hl
    have hlen : mic - 1 ≤ c.length := by
      have := (List.mem_filter.1 hc).2
      simpa using this
    simp only [List.length_cons]
    omega

/-- Witness for C1 at the reference input, `min_support = 3`,
`min_item_count = 2`. -/
theorem claimC1_witness :
    findFrequencyItemSets refState3 2 =
      specEnumerate refState3.conditional_pattern_bases 2 ∧
    ∀ l ∈ findFrequencyItemSets refState3 2, 2 ≤ l.length :=
  claimC1 3 refItemSets 2 refState3 rfl (by decide)

/-! ### Claim C3: tree-insertion refinement -/

theorem specScan_eq (i : Nat) (cs : List Node) :
    specScan i cs = splitAtItem cs i := by
  induction cs with
  | nil => rfl
  | cons c cs ih =>
    rw [specScan, splitAtItem, ih]
    by_cases h : c.item = some i
    · simp [h]
    · simp only [if_neg h]
      cases splitAtItem cs i with
      | none => rfl
      | some r => rfl

/-- C3: the recursive tree insertion of the source (`Tree.add_item_set` on a
non-empty sequence `i :: rest`) coincides with the specification's insertion
algorithm: find an existing child carrying the first item and increment its
frequency, or create a new child with frequency 1 carrying the first item,
append it to the children and report it as newly created; descend and recurse
with the remaining subsequence until the sequence is exhausted. -/
theorem claimC3 : ∀ (rest : List Nat) (n : Node) (i : Nat),
    addPath n i rest = specInsert n (i :: rest) := by
  intro rest
  induction rest with
  | nil =>
    intro n i
    obtain ⟨it, f, cs⟩ := n
    rw [addPath, specInsert, specScan_eq]
    cases hsp : splitAtItem cs i with
    | none => simp [specInsert]
    | some r =>
      obtain ⟨pre, c, post⟩ := r
      obtain ⟨ci, cf, cc⟩ := c
      simp [specInsert, bumpNode, Node.item, Node.frequency, Node.children]
  | cons r rs ih =>
    intro n i
    obtain ⟨it, f, cs⟩ := n
    rw [addPath, specInsert, specScan_eq]
    cases hsp : splitAtItem cs i with
    | none => simp [ih]
    | some z =>
      obtain ⟨pre, c, post⟩ := z
      obtain ⟨ci, cf, cc⟩ := c
      simp [ih, bumpNode, Node.item, Node.frequency, Node.children]

/-! ### Claim C5: pointer registration error behaviour -/

/-- C5 counterexample: registering a node whose item (5) is absent from the
table fails with `ValueError`, which is not a `LookupError`-class exception
(in Python `ValueError` derives from `Exception` directly, not from
`LookupError`). -/
theorem claimC5_cex :
    addItemHeaderPointer [] (NodeRef.mk (some 5) [5]) =
      Except.error PyErr.valueError ∧
    PyErr.isLookupKind PyErr.valueError = false := by
  exact ⟨rfl, rfl⟩

/-- C5 (amended): `add_item_header_pointer(node)` registers `node` into the
header whose item equals `node.item` when that item is present in the table,
and fails immediately with a `ValueError` (not a `LookupError`-class error)
when `node.item` is absent from the table. -/
theorem claimC5_amended (t : Table) (r : NodeRef) :
    (∀ i, r.item = some i → containKey t i = true →
      ∃ t', addItemHeaderPointer t r = Except.ok t' ∧
        ∀ h, alookup t i = some h →
          alookup t' i = some (ItemHeader.mk h.item h.frequency
            (insertSet h.pointers r.path))) ∧
    ((∀ i, r.item = some i → containKey t i = false) →
      addItemHeaderPointer t r = Except.error PyErr.valueError) := by
  constructor
  · intro i hi hc
    rw [addItemHeaderPointer, hi]
    simp only [hc, if_true]
    refine ⟨_, rfl, ?_⟩
    intro h hh
    rw [alookup_modifyAssoc_self, hh]
    rfl
  · intro hall
    cases hri : r.item with
    | none => rw [addItemHeaderPointer, hri]
    | some i =>
      rw [addItemHeaderPointer, hri]
      simp [hall i hri]

/-- Witness for C5: a table containing item 5 accepts the registration; the
empty table rejects a root reference with `ValueError`. -/
theorem claimC5_witness :
    (∃ t', addItemHeaderPointer [(5, ItemHeader.mk 5 3 [])]
        (NodeRef.mk (some 5) [5]) = Except.ok t' ∧
      ∀ h, alookup [(5, ItemHeader.mk 5 3 [])] 5 = some h →
        alookup t' 5 = some (ItemHeader.mk h.item h.frequency
          (insertSet h.pointers [5]))) ∧
    addItemHeaderPointer [] (NodeRef.mk none []) =
      Except.error PyErr.valueError := by
  constructor
  · exact (claimC5_amended [(5, ItemHeader.mk 5 3 [])]
      (NodeRef.mk (some 5) [5])).1 5 rfl rfl
  · exact (claimC5_amended [] (NodeRef.mk none [])).2
      (fun i hi => Option.noConfusion hi)

/-! ### Tree infrastructure lemmas -/

theorem findChild_append (l1 l2 : List Node) (j : Nat) :
    findChild (l1 ++ l2) j =
      (match findChild l1 j with
       | some c => some c
       | none => findChild l2 j) := by
  induction l1 with
  | nil => simp [findChild]
  | cons c cs ih =>
    by_cases h : c.item = some j
    · simp [findChild, h]
    · rw [List.cons_append, findChild, if_neg h, findChild, if_neg h]
      exact ih

theorem splitAtItem_none_iff (cs : List Node) (i : Nat) :
    splitAtItem cs i = none ↔ findChild cs i = none := by
  induction cs with
  | nil => simp [splitAtItem, findChild]
  | cons c cs ih =>
    by_cases h : c.item = some i
    · simp [splitAtItem, findChild, h]
    · rw [splitAtItem, if_neg h, findChild, if_neg h]
      cases hs : splitAtItem cs i with
      | none => simp [ih.1 hs]
      | some r =>
        obtain ⟨pre, x, post⟩ := r
        simp only [Option.some.injEq]
        constructor
        · intro hcon; exact absurd hcon (by simp)
        · intro hfc
          have h2 := ih.2 hfc
          rw [hs] at h2
          exact absurd h2 (by simp)

theorem splitAtItem_some_decomp {cs : List Node} {i : Nat}
    {pre : List Node} {c : Node} {post : List Node}
    (h : splitAtItem cs i = some (pre, c, post)) :
    cs = pre ++ c :: post ∧ c.item = some i ∧ findChild pre i = none := by
  induction cs generalizing pre c post with
  | nil => simp [splitAtItem] at h
  | cons d cs ih =>
    by_cases hd : d.item = some i
    · rw [splitAtItem, if_pos hd, Option.some_inj] at h
      obtain ⟨h1, h2⟩ := Prod.mk.inj h
      obtain ⟨h3, h4⟩ := Prod.mk.inj h2
      subst h1; subst h3; subst h4
      exact ⟨rfl, hd, by simp [findChild]⟩
    · rw [splitAtItem, if_neg hd] at h
      cases hs : splitAtItem cs i with
      | none => rw [hs] at h; simp at h
      | some r =>
        obtain ⟨pre', c', post'⟩ := r
        rw [hs] at h
        simp only [Option.some.injEq] at h
        obtain ⟨h1, h2⟩ := Prod.mk.inj h
        obtain ⟨h3, h4⟩ := Prod.mk.inj h2
        obtain ⟨hcs, hci, hfc⟩ := ih hs
        subst h3; subst h4
        rw [← h1]
        refine ⟨by rw [hcs]; simp, hci, ?_⟩
        rw [findChild, if_neg hd, hfc]

theorem findChild_mid_self {pre : List Node} {c : Node} {post : List Node}
    {i : Nat} (hpre : findChild pre i = none) (hc : c.item = some i) :
    findChild (pre ++ c :: post) i = some c := by
  rw [findChild_append, hpre]
  simp [findChild, hc]

theorem findChild_mid_other {pre : List Node} {c1 c2 : Node} {post : List Node}
    {i j : Nat} (hj : j ≠ i) (h1 : c1.item = some i) (h2 : c2.item = some i) :
    findChild (pre ++ c1 :: post) j = findChild (pre ++ c2 :: post) j := by
  rw [findChild_append, findChild_append]
  cases findChild pre j with
  | some c => rfl
  | none =>
    have hne1 : ¬ c1.item = some j := by rw [h1]; simp; exact fun hc => hj hc.symm
    have hne2 : ¬ c2.item = some j := by rw [h2]; simp; exact fun hc => hj hc.symm
    simp only [findChild, if_neg hne1, if_neg hne2]

theorem bumpNode_item (c : Node) : (bumpNode c).item = c.item := by
  obtain ⟨it, f, cs⟩ := c; rfl

theorem bumpNode_children (c : Node) : (bumpNode c).children = c.children := by
  obtain ⟨it, f, cs⟩ := c; rfl

theorem bumpNode_frequency (c : Node) :
    (bumpNode c).frequency = c.frequency + 1 := by
  obtain ⟨it, f, cs⟩ := c; rfl

theorem hasPath_bumpNode (c : Node) (q : List Nat) :
    hasPath (bumpNode c) q = hasPath c q := by
  cases q with
  | nil => rfl
  | cons j q' =>
    obtain ⟨it, f, cs⟩ := c
    rfl

theorem freqAt_bumpNode_cons (c : Node) (j : Nat) (q' : List Nat) :
    freqAt (bumpNode c) (j :: q') = freqAt c (j :: q') := by
  obtain ⟨it, f, cs⟩ := c
  rfl

theorem allPaths_bumpNode (c : Node) : allPaths (bumpNode c) = allPaths c := by
  obtain ⟨it, f, cs⟩ := c
  rfl

theorem countNodes_bumpNode (c : Node) :
    countNodes (bumpNode c) = countNodes c := by
  obtain ⟨it, f, cs⟩ := c
  rfl

theorem addPath_root_item (n : Node) (i : Nat) (rest : List Nat) :
    (addPath n i rest).1.item = n.item ∧
    (addPath n i rest).1.frequency = n.frequency := by
  obtain ⟨it, f, cs⟩ := n
  cases rest with
  | nil =>
    rw [addPath]
    cases hsp : splitAtItem cs i with
    | none => exact ⟨rfl, rfl⟩
    | some z => obtain ⟨pre, c, post⟩ := z; exact ⟨rfl, rfl⟩
  | cons r rs =>
    rw [addPath]
    cases hsp : splitAtItem cs i with
    | none => exact ⟨rfl, rfl⟩
    | some z => obtain ⟨pre, c, post⟩ := z; exact ⟨rfl, rfl⟩

theorem not_mem_segsOf_cons_of_head_ne {i j : Nat} {q' rest : List Nat}
    (hj : j ≠ i) : (j :: q') ∉ segsOf (i :: rest) := by
  intro h
  have := ((mem_segsOf _ _).1 h).2
  rw [isegB_cons_cons] at this
  exact hj this.1.symm

theorem cons_mem_segsOf_cons_iff (i : Nat) (q' rest : List Nat) :
    (i :: q') ∈ segsOf (i :: rest) ↔ (q' = [] ∨ q' ∈ segsOf rest) := by
  rw [mem_segsOf, isegB_cons_cons]
  constructor
  · rintro ⟨-, -, hseg⟩
    cases hq' : q' with
    | nil => exact Or.inl rfl
    | cons b q'' =>
      refine Or.inr ((mem_segsOf _ _).2 ⟨by simp, ?_⟩)
      rw [← hq']; exact hseg
  · rintro (rfl | h)
    · exact ⟨by simp, rfl, isegB_nil rest⟩
    · exact ⟨by simp, rfl, ((mem_segsOf _ _).1 h).2⟩

/-! ### Effect of one insertion on paths, frequencies and new nodes -/

theorem children_mk (it : Option Nat) (f : Nat) (cs : List Node) :
    (Node.mk it f cs).children = cs := rfl

theorem hasPath_cons_found {cs : List Node} {j : Nat} {c : Node}
    (h : findChild cs j = some c) (it : Option Nat) (f : Nat) (q' : List Nat) :
    hasPath (Node.mk it f cs) (j :: q') = hasPath c q' := by
  show (match findChild cs j with
        | some c => hasPath c q'
        | none => false) = hasPath c q'
  rw [h]

theorem hasPath_cons_none {cs : List Node} {j : Nat}
    (h : findChild cs j = none) (it : Option Nat) (f : Nat) (q' : List Nat) :
    hasPath (Node.mk it f cs) (j :: q') = false := by
  show (match findChild cs j with
        | some c => hasPath c q'
        | none => false) = false
  rw [h]

theorem freqAt_cons_found {cs : List Node} {j : Nat} {c : Node}
    (h : findChild cs j = some c) (it : Option Nat) (f : Nat) (q' : List Nat) :
    freqAt (Node.mk it f cs) (j :: q') = freqAt c q' := by
  show (match findChild cs j with
        | some c => freqAt c q'
        | none => 0) = freqAt c q'
  rw [h]

theorem freqAt_cons_none {cs : List Node} {j : Nat}
    (h : findChild cs j = none) (it : Option Nat) (f : Nat) (q' : List Nat) :
    freqAt (Node.mk it f cs) (j :: q') = 0 := by
  show (match findChild cs j with
        | some c => freqAt c q'
        | none => 0) = 0
  rw [h]

theorem findChild_append_self {cs : List Node} {i : Nat}
    (hfc : findChild cs i = none) {c' : Node} (hc : c'.item = some i) :
    findChild (cs ++ [c']) i = some c' := by
  rw [findChild_append, hfc]
  simp [findChild, hc]

theorem findChild_append_other {cs : List Node} {j : Nat} {c' : Node}
    (hc : ¬ c'.item = some j) :
    findChild (cs ++ [c']) j = findChild cs j := by
  rw [findChild_append]
  cases h : findChild cs j with
  | some c => rfl
  | none => simp [findChild, hc]

theorem hasPath_leaf_cons (i v j : Nat) (q' : List Nat) :
    hasPath (Node.mk (some i) v []) (j :: q') = false :=
  hasPath_cons_none (show findChild [] j = none from rfl) _ _ _

theorem freqAt_leaf_cons (i v j : Nat) (q' : List Nat) :
    freqAt (Node.mk (some i) v []) (j :: q') = 0 :=
  freqAt_cons_none (show findChild [] j = none from rfl) _ _ _

theorem head_mem_segsOf (j : Nat) (rest : List Nat) :
    [j] ∈ segsOf (j :: rest) := by
  rw [cons_mem_segsOf_cons_iff]; exact Or.inl rfl

theorem long_mem_segsOf_iff (j b : Nat) (q'' rest : List Nat) :
    (j :: b :: q'') ∈ segsOf (j :: rest) ↔ (b :: q'') ∈ segsOf rest := by
  rw [cons_mem_segsOf_cons_iff]
  constructor
  · rintro (h | h)
    · exact absurd h (by simp)
    · exact h
  · exact fun h => Or.inr h

theorem not_long_mem_segsOf_singleton (j b : Nat) (q'' : List Nat) :
    (j :: b :: q'') ∉ segsOf [j] := by
  rw [long_mem_segsOf_iff]
  simp [segsOf]
theorem item_mk (it : Option Nat) (f : Nat) (cs : List Node) :
    (Node.mk it f cs).item = it := rfl

theorem frequency_mk (it : Option Nat) (f : Nat) (cs : List Node) :
    (Node.mk it f cs).frequency = f := rfl

theorem addPath_found_nil {cs : List Node} {i : Nat} {pre : List Node}
    {c : Node} {post : List Node} (hsp : splitAtItem cs i = some (pre, c, post))
    (it : Option Nat) (f : Nat) :
    addPath (Node.mk it f cs) i [] =
      (Node.mk it f (pre ++ bumpNode c :: post), []) := by
  rw [addPath, hsp]
  simp

theorem addPath_found_cons {cs : List Node} {i : Nat} {pre : List Node}
    {c : Node} {post : List Node} (hsp : splitAtItem cs i = some (pre, c, post))
    (it : Option Nat) (f : Nat) (r : Nat) (rs : List Nat) :
    addPath (Node.mk it f cs) i (r :: rs) =
      (Node.mk it f (pre ++ (addPath (bumpNode c) r rs).1 :: post),
       (addPath (bumpNode c) r rs).2.map (fun q => i :: q)) := by
  rw [addPath, hsp]
  simp

theorem addPath_none_nil {cs : List Node} {i : Nat}
    (hsp : splitAtItem cs i = none) (it : Option Nat) (f : Nat) :
    addPath (Node.mk it f cs) i [] =
      (Node.mk it f (cs ++ [Node.mk (some i) 1 []]), [[i]]) := by
  rw [addPath, hsp]

theorem addPath_none_cons {cs : List Node} {i : Nat}
    (hsp : splitAtItem cs i = none) (it : Option Nat) (f : Nat)
    (r : Nat) (rs : List Nat) :
    addPath (Node.mk it f cs) i (r :: rs) =
      (Node.mk it f (cs ++ [(addPath (Node.mk (some i) 1 []) r rs).1]),
       [i] :: (addPath (Node.mk (some i) 1 []) r rs).2.map (fun q => i :: q)) := by
  rw [addPath, hsp]

theorem addPath_found_nil_fst {cs : List Node} {i : Nat} {pre : List Node}
    {c : Node} {post : List Node} (hsp : splitAtItem cs i = some (pre, c, post))
    (it : Option Nat) (f : Nat) :
    (addPath (Node.mk it f cs) i []).1 =
      Node.mk it f (pre ++ bumpNode c :: post) := by
  rw [addPath_found_nil hsp]

theorem addPath_found_nil_snd {cs : List Node} {i : Nat} {pre : List Node}
    {c : Node} {post : List Node} (hsp : splitAtItem cs i = some (pre, c, post))
    (it : Option Nat) (f : Nat) :
    (addPath (Node.mk it f cs) i []).2 = [] := by
  rw [addPath_found_nil hsp]

theorem addPath_found_cons_fst {cs : List Node} {i : Nat} {pre : List Node}
    {c : Node} {post : List Node} (hsp : splitAtItem cs i = some (pre, c, post))
    (it : Option Nat) (f : Nat) (r : Nat) (rs : List Nat) :
    (addPath (Node.mk it f cs) i (r :: rs)).1 =
      Node.mk it f (pre ++ (addPath (bumpNode c) r rs).1 :: post) := by
  rw [addPath_found_cons hsp]

theorem addPath_found_cons_snd {cs : List Node} {i : Nat} {pre : List Node}
    {c : Node} {post : List Node} (hsp : splitAtItem cs i = some (pre, c, post))
    (it : Option Nat) (f : Nat) (r : Nat) (rs : List Nat) :
    (addPath (Node.mk it f cs) i (r :: rs)).2 =
      (addPath (bumpNode c) r rs).2.map (fun q => i :: q) := by
  rw [addPath_found_cons hsp]

theorem addPath_none_nil_fst {cs : List Node} {i : Nat}
    (hsp : splitAtItem cs i = none) (it : Option Nat) (f : Nat) :
    (addPath (Node.mk it f cs) i []).1 =
      Node.mk it f (cs ++ [Node.mk (some i) 1 []]) := by
  rw [addPath_none_nil hsp]

theorem addPath_none_nil_snd {cs : List Node} {i : Nat}
    (hsp : splitAtItem cs i = none) (it : Option Nat) (f : Nat) :
    (addPath (Node.mk it f cs) i []).2 = [[i]] := by
  rw [addPath_none_nil hsp]

theorem addPath_none_cons_fst {cs : List Node} {i : Nat}
    (hsp : splitAtItem cs i = none) (it : Option Nat) (f : Nat)
    (r : Nat) (rs : List Nat) :
    (addPath (Node.mk it f cs) i (r :: rs)).1 =
      Node.mk it f (cs ++ [(addPath (Node.mk (some i) 1 []) r rs).1]) := by
  rw [addPath_none_cons hsp]

theorem addPath_none_cons_snd {cs : List Node} {i : Nat}
    (hsp : splitAtItem cs i = none) (it : Option Nat) (f : Nat)
    (r : Nat) (rs : List Nat) :
    (addPath (Node.mk it f cs) i (r :: rs)).2 =
      [i] :: (addPath (Node.mk (some i) 1 []) r rs).2.map (fun q => i :: q) := by
  rw [addPath_none_cons hsp]

theorem hasPath_addPath : ∀ (rest : List Nat) (n : Node) (i : Nat) (q : List Nat),
    hasPath (addPath n i rest).1 q =
      (hasPath n q || decide (q ∈ segsOf (i :: rest))) := by
  intro rest
  induction rest with
  | nil =>
    intro n i q
    obtain ⟨it, f, cs⟩ := n
    cases hsp : splitAtItem cs i with
    | some z =>
      obtain ⟨pre, c, post⟩ := z
      obtain ⟨hcs, hci, hpre⟩ := splitAtItem_some_decomp hsp
      rw [addPath_found_nil_fst hsp it f]
      subst hcs
      cases q with
      | nil => simp [hasPath]
      | cons j q' =>
        by_cases hj : j = i
        · subst hj
          rw [hasPath_cons_found (findChild_mid_self hpre
            (bumpNode_item c ▸ hci)) it f q']
          rw [hasPath_cons_found (findChild_mid_self hpre hci) it f q']
          rw [hasPath_bumpNode]
          cases q' with
          | nil => simp [hasPath, head_mem_segsOf]
          | cons b q'' => simp [not_long_mem_segsOf_singleton j b q'']
        · have heq : findChild (pre ++ bumpNode c :: post) j =
              findChild (pre ++ c :: post) j :=
            findChild_mid_other hj (bumpNode_item c ▸ hci) hci
          cases hq : findChild (pre ++ c :: post) j with
          | some d =>
            rw [hasPath_cons_found (heq.trans hq) it f q',
              hasPath_cons_found hq it f q']
            simp [not_mem_segsOf_cons_of_head_ne hj]
          | none =>
            rw [hasPath_cons_none (heq.trans hq) it f q',
              hasPath_cons_none hq it f q']
            simp [not_mem_segsOf_cons_of_head_ne hj]
    | none =>
      have hfc : findChild cs i = none := (splitAtItem_none_iff cs i).1 hsp
      rw [addPath_none_nil_fst hsp it f]
      cases q with
      | nil => simp [hasPath]
      | cons j q' =>
        by_cases hj : j = i
        · subst hj
          rw [hasPath_cons_found (findChild_append_self hfc
            (rfl : (Node.mk (some j) 1 []).item = some j)) it f q']
          rw [hasPath_cons_none hfc it f q']
          cases q' with
          | nil => simp [hasPath, head_mem_segsOf]
          | cons b q'' =>
            rw [hasPath_leaf_cons]
            simp [not_long_mem_segsOf_singleton j b q'']
        · have hne : ¬ (Node.mk (some i) 1 []).item = some j := by
            rw [item_mk]
            intro hc
            exact hj (Option.some_inj.1 hc).symm
          have heq : findChild (cs ++ [Node.mk (some i) 1 []]) j =
              findChild cs j := findChild_append_other hne
          cases hq : findChild cs j with
          | some d =>
            rw [hasPath_cons_found (heq.trans hq) it f q',
              hasPath_cons_found hq it f q']
            simp [not_mem_segsOf_cons_of_head_ne hj]
          | none =>
            rw [hasPath_cons_none (heq.trans hq) it f q',
              hasPath_cons_none hq it f q']
            simp [not_mem_segsOf_cons_of_head_ne hj]
  | cons r rs ih =>
    intro n i q
    obtain ⟨it, f, cs⟩ := n
    cases hsp : splitAtItem cs i with
    | some z =>
      obtain ⟨pre, c, post⟩ := z
      obtain ⟨hcs, hci, hpre⟩ := splitAtItem_some_decomp hsp
      rw [addPath_found_cons_fst hsp it f r rs]
      subst hcs
      have hitem : (addPath (bumpNode c) r rs).1.item = some i := by
        rw [(addPath_root_item _ _ _).1, bumpNode_item]; exact hci
      cases q with
      | nil => simp [hasPath]
      | cons j q' =>
        by_cases hj : j = i
        · subst hj
          rw [hasPath_cons_found (findChild_mid_self hpre hitem) it f q']
          rw [hasPath_cons_found (findChild_mid_self hpre hci) it f q']
          rw [ih (bumpNode c) r q', hasPath_bumpNode]
          cases q' with
          | nil => simp [hasPath, head_mem_segsOf, nil_not_mem_segsOf]
          | cons b q'' =>
            by_cases hm : (b :: q'') ∈ segsOf (r :: rs) <;>
              simp [hm, long_mem_segsOf_iff]
        · have heq : findChild (pre ++ (addPath (bumpNode c) r rs).1 :: post) j =
              findChild (pre ++ c :: post) j :=
            findChild_mid_other hj hitem hci
          cases hq : findChild (pre ++ c :: post) j with
          | some d =>
            rw [hasPath_cons_found (heq.trans hq) it f q',
              hasPath_cons_found hq it f q']
            simp [not_mem_segsOf_cons_of_head_ne hj]
          | none =>
            rw [hasPath_cons_none (heq.trans hq) it f q',
              hasPath_cons_none hq it f q']
            simp [not_mem_segsOf_cons_of_head_ne hj]
    | none =>
      have hfc : findChild cs i = none := (splitAtItem_none_iff cs i).1 hsp
      rw [addPath_none_cons_fst hsp it f r rs]
      have hitem : (addPath (Node.mk (some i) 1 []) r rs).1.item = some i := by
        rw [(addPath_root_item _ _ _).1, item_mk]
      cases q with
      | nil => simp [hasPath]
      | cons j q' =>
        by_cases hj : j = i
        · subst hj
          rw [hasPath_cons_found (findChild_append_self hfc hitem) it f q']
          rw [hasPath_cons_none hfc it f q']
          rw [ih (Node.mk (some j) 1 []) r q']
          cases q' with
          | nil => simp [hasPath, head_mem_segsOf, nil_not_mem_segsOf]
          | cons b q'' =>
            rw [hasPath_leaf_cons]
            by_cases hm : (b :: q'') ∈ segsOf (r :: rs) <;>
              simp [hm, long_mem_segsOf_iff]
        · have hne : ¬ (addPath (Node.mk (some i) 1 []) r rs).1.item = some j := by
            rw [hitem]
            intro hc
            exact hj (Option.some_inj.1 hc).symm
          have heq : findChild (cs ++ [(addPath (Node.mk (some i) 1 []) r rs).1]) j =
              findChild cs j := findChild_append_other hne
          cases hq : findChild cs j with
          | some d =>
            rw [hasPath_cons_found (heq.trans hq) it f q',
              hasPath_cons_found hq it f q']
            simp [not_mem_segsOf_cons_of_head_ne hj]
          | none =>
            rw [hasPath_cons_none (heq.trans hq) it f q',
              hasPath_cons_none hq it f q']
            simp [not_mem_segsOf_cons_of_head_ne hj]

theorem freqAt_nil (n : Node) : freqAt n [] = n.frequency := rfl

theorem freqAt_addPath : ∀ (rest : List Nat) (n : Node) (i : Nat) (q : List Nat),
    freqAt (addPath n i rest).1 q =
      freqAt n q + (if q ∈ segsOf (i :: rest) then 1 else 0) := by
  intro rest
  induction rest with
  | nil =>
    intro n i q
    obtain ⟨it, f, cs⟩ := n
    cases hsp : splitAtItem cs i with
    | some z =>
      obtain ⟨pre, c, post⟩ := z
      obtain ⟨hcs, hci, hpre⟩ := splitAtItem_some_decomp hsp
      rw [addPath_found_nil_fst hsp it f]
      subst hcs
      cases q with
      | nil => simp [freqAt_nil, frequency_mk, nil_not_mem_segsOf]
      | cons j q' =>
        by_cases hj : j = i
        · subst hj
          rw [freqAt_cons_found (findChild_mid_self hpre
            (bumpNode_item c ▸ hci)) it f q']
          rw [freqAt_cons_found (findChild_mid_self hpre hci) it f q']
          cases q' with
          | nil =>
            simp [freqAt_nil, bumpNode_frequency, head_mem_segsOf]
          | cons b q'' =>
            rw [freqAt_bumpNode_cons]
            simp [not_long_mem_segsOf_singleton j b q'']
        · have heq : findChild (pre ++ bumpNode c :: post) j =
              findChild (pre ++ c :: post) j :=
            findChild_mid_other hj (bumpNode_item c ▸ hci) hci
          cases hq : findChild (pre ++ c :: post) j with
          | some d =>
            rw [freqAt_cons_found (heq.trans hq) it f q',
              freqAt_cons_found hq it f q']
            simp [not_mem_segsOf_cons_of_head_ne hj]
          | none =>
            rw [freqAt_cons_none (heq.trans hq) it f q',
              freqAt_cons_none hq it f q']
            simp [not_mem_segsOf_cons_of_head_ne hj]
    | none =>
      have hfc : findChild cs i = none := (splitAtItem_none_iff cs i).1 hsp
      rw [addPath_none_nil_fst hsp it f]
      cases q with
      | nil => simp [freqAt_nil, frequency_mk, nil_not_mem_segsOf]
      | cons j q' =>
        by_cases hj : j = i
        · subst hj
          rw [freqAt_cons_found (findChild_append_self hfc
            (rfl : (Node.mk (some j) 1 []).item = some j)) it f q']
          rw [freqAt_cons_none hfc it f q']
          cases q' with
          | nil => simp [freqAt_nil, frequency_mk, head_mem_segsOf]
          | cons b q'' =>
            rw [freqAt_leaf_cons]
            simp [not_long_mem_segsOf_singleton j b q'']
        · have hne : ¬ (Node.mk (some i) 1 []).item = some j := by
            rw [item_mk]
            intro hc
            exact hj (Option.some_inj.1 hc).symm
          have heq : findChild (cs ++ [Node.mk (some i) 1 []]) j =
              findChild cs j := findChild_append_other hne
          cases hq : findChild cs j with
          | some d =>
            rw [freqAt_cons_found (heq.trans hq) it f q',
              freqAt_cons_found hq it f q']
            simp [not_mem_segsOf_cons_of_head_ne hj]
          | none =>
            rw [freqAt_cons_none (heq.trans hq) it f q',
              freqAt_cons_none hq it f q']
            simp [not_mem_segsOf_cons_of_head_ne hj]
  | cons r rs ih =>
    intro n i q
    obtain ⟨it, f, cs⟩ := n
    cases hsp : splitAtItem cs i with
    | some z =>
      obtain ⟨pre, c, post⟩ := z
      obtain ⟨hcs, hci, hpre⟩ := splitAtItem_some_decomp hsp
      rw [addPath_found_cons_fst hsp it f r rs]
      subst hcs
      have hitem : (addPath (bumpNode c) r rs).1.item = some i := by
        rw [(addPath_root_item _ _ _).1, bumpNode_item]; exact hci
      cases q with
      | nil => simp [freqAt_nil, frequency_mk, nil_not_mem_segsOf]
      | cons j q' =>
        by_cases hj : j = i
        · subst hj
          rw [freqAt_cons_found (findChild_mid_self hpre hitem) it f q']
          rw [freqAt_cons_found (findChild_mid_self hpre hci) it f q']
          rw [ih (bumpNode c) r q']
          cases q' with
          | nil =>
            rw [freqAt_nil, freqAt_nil, bumpNode_frequency]
            simp [head_mem_segsOf, nil_not_mem_segsOf]
          | cons b q'' =>
            rw [freqAt_bumpNode_cons]
            by_cases hm : (b :: q'') ∈ segsOf (r :: rs) <;>
              simp [hm, long_mem_segsOf_iff]
        · have heq : findChild (pre ++ (addPath (bumpNode c) r rs).1 :: post) j =
              findChild (pre ++ c :: post) j :=
            findChild_mid_other hj hitem hci
          cases hq : findChild (pre ++ c :: post) j with
          | some d =>
            rw [freqAt_cons_found (heq.trans hq) it f q',
              freqAt_cons_found hq it f q']
            simp [not_mem_segsOf_cons_of_head_ne hj]
          | none =>
            rw [freqAt_cons_none (heq.trans hq) it f q',
              freqAt_cons_none hq it f q']
            simp [not_mem_segsOf_cons_of_head_ne hj]
    | none =>
      have hfc : findChild cs i = none := (splitAtItem_none_iff cs i).1 hsp
      rw [addPath_none_cons_fst hsp it f r rs]
      have hitem : (addPath (Node.mk (some i) 1 []) r rs).1.item = some i := by
        rw [(addPath_root_item _ _ _).1, item_mk]
      cases q with
      | nil => simp [freqAt_nil, frequency_mk, nil_not_mem_segsOf]
      | cons j q' =>
        by_cases hj : j = i
        · subst hj
          rw [freqAt_cons_found (findChild_append_self hfc hitem) it f q']
          rw [freqAt_cons_none hfc it f q']
          rw [ih (Node.mk (some j) 1 []) r q']
          cases q' with
          | nil =>
            rw [freqAt_nil, frequency_mk]
            simp [head_mem_segsOf, nil_not_mem_segsOf]
          | cons b q'' =>
            rw [freqAt_leaf_cons]
            by_cases hm : (b :: q'') ∈ segsOf (r :: rs) <;>
              simp [hm, long_mem_segsOf_iff]
        · have hne : ¬ (addPath (Node.mk (some i) 1 []) r rs).1.item = some j := by
            rw [hitem]
            intro hc
            exact hj (Option.some_inj.1 hc).symm
          have heq : findChild (cs ++ [(addPath (Node.mk (some i) 1 []) r rs).1]) j =
              findChild cs j := findChild_append_other hne
          cases hq : findChild cs j with
          | some d =>
            rw [freqAt_cons_found (heq.trans hq) it f q',
              freqAt_cons_found hq it f q']
            simp [not_mem_segsOf_cons_of_head_ne hj]
          | none =>
            rw [freqAt_cons_none (heq.trans hq) it f q',
              freqAt_cons_none hq it f q']
            simp [not_mem_segsOf_cons_of_head_ne hj]

theorem filter_map_comm {α β : Type} (f : α → β) (p : β → Bool) (l : List α) :
    (l.map f).filter p = (l.filter (fun a => p (f a))).map f := by
  induction l with
  | nil => rfl
  | cons a l ih =>
    by_cases h : p (f a) = true
    · simp only [List.map_cons, List.filter_cons, h, if_true, ih]
    · rw [List.map_cons, List.filter_cons, List.filter_cons]
      rw [if_neg h, if_neg h, ih]

theorem filter_congr_mem {α : Type} {p q : α → Bool} {l : List α}
    (h : ∀ a ∈ l, p a = q a) : l.filter p = l.filter q := by
  induction l with
  | nil => rfl
  | cons a l ih =>
    rw [List.filter_cons, List.filter_cons, h a (by simp),
      ih (fun a ha => h a (List.mem_cons_of_mem _ ha))]

theorem newPaths_addPath : ∀ (rest : List Nat) (n : Node) (i : Nat),
    (addPath n i rest).2 =
      (segsOf (i :: rest)).filter (fun q => !(hasPath n q)) := by
  intro rest
  induction rest with
  | nil =>
    intro n i
    obtain ⟨it, f, cs⟩ := n
    cases hsp : splitAtItem cs i with
    | some z =>
      obtain ⟨pre, c, post⟩ := z
      obtain ⟨hcs, hci, hpre⟩ := splitAtItem_some_decomp hsp
      subst hcs
      rw [addPath_found_nil_snd hsp it f]
      have h1 : hasPath (Node.mk it f (pre ++ c :: post)) [i] = true := by
        rw [hasPath_cons_found (findChild_mid_self hpre hci) it f []]
        rfl
      simp [segsOf, h1]
    | none =>
      have hfc : findChild cs i = none := (splitAtItem_none_iff cs i).1 hsp
      rw [addPath_none_nil_snd hsp it f]
      have h1 : hasPath (Node.mk it f cs) [i] = false :=
        hasPath_cons_none hfc it f []
      simp [segsOf, h1]
  | cons r rs ih =>
    intro n i
    obtain ⟨it, f, cs⟩ := n
    cases hsp : splitAtItem cs i with
    | some z =>
      obtain ⟨pre, c, post⟩ := z
      obtain ⟨hcs, hci, hpre⟩ := splitAtItem_some_decomp hsp
      subst hcs
      rw [addPath_found_cons_snd hsp it f r rs]
      rw [ih (bumpNode c) r]
      have h1 : hasPath (Node.mk it f (pre ++ c :: post)) [i] = true := by
        rw [hasPath_cons_found (findChild_mid_self hpre hci) it f []]
        rfl
      rw [show segsOf (i :: r :: rs) =
        [i] :: (segsOf (r :: rs)).map (fun q => i :: q) from rfl]
      rw [List.filter_cons]
      rw [if_neg (by simp [h1])]
      rw [filter_map_comm]
      refine congrArg _ (filter_congr_mem ?_)
      intro q' hq'
      rw [hasPath_bumpNode]
      rw [hasPath_cons_found (findChild_mid_self hpre hci) it f q']
    | none =>
      have hfc : findChild cs i = none := (splitAtItem_none_iff cs i).1 hsp
      rw [addPath_none_cons_snd hsp it f r rs]
      rw [ih (Node.mk (some i) 1 []) r]
      have h1 : hasPath (Node.mk it f cs) [i] = false :=
        hasPath_cons_none hfc it f []
      rw [show segsOf (i :: r :: rs) =
        [i] :: (segsOf (r :: rs)).map (fun q => i :: q) from rfl]
      rw [List.filter_cons]
      rw [if_pos (by simp [h1])]
      rw [filter_map_comm]
      have h2 : (segsOf (r :: rs)).filter
          (fun q => !(hasPath (Node.mk (some i) 1 []) q)) = segsOf (r :: rs) := by
        refine List.filter_eq_self.2 ?_
        intro q hq
        obtain ⟨hne, -⟩ := (mem_segsOf q (r :: rs)).1 hq
        cases q with
        | nil => exact absurd rfl hne
        | cons b q'' => simp [hasPath_leaf_cons]
      have h3 : (segsOf (r :: rs)).filter
          (fun q => !(hasPath (Node.mk it f cs) (i :: q))) = segsOf (r :: rs) := by
        refine List.filter_eq_self.2 ?_
        intro q hq
        simp [hasPath_cons_none hfc it f q]
      rw [h2, h3]

/-! ### Node-count and path-multiset effect of one insertion -/

theorem allPaths_mk (it : Option Nat) (f : Nat) (cs : List Node) :
    allPaths (Node.mk it f cs) = pathsOfChildren cs := rfl

theorem countNodes_mk (it : Option Nat) (f : Nat) (cs : List Node) :
    countNodes (Node.mk it f cs) = 1 + countChildren cs := rfl

theorem countChildren_cons (c : Node) (cs : List Node) :
    countChildren (c :: cs) = countNodes c + countChildren cs := rfl

theorem countChildren_append (l1 l2 : List Node) :
    countChildren (l1 ++ l2) = countChildren l1 + countChildren l2 := by
  induction l1 with
  | nil => simp [countChildren]
  | cons c cs ih =>
    rw [List.cons_append, countChildren_cons, countChildren_cons, ih]
    omega

theorem pathsOfChildren_cons (c : Node) (cs : List Node) :
    pathsOfChildren (c :: cs) =
      (match c.item with
       | some j => [j] :: (allPaths c).map (fun q => j :: q)
       | none => []) ++ pathsOfChildren cs := by
  obtain ⟨it, f, cc⟩ := c
  rfl

theorem pathsOfChildren_cons_some {c : Node} {j : Nat} (h : c.item = some j)
    (cs : List Node) :
    pathsOfChildren (c :: cs) =
      ([j] :: (allPaths c).map (fun q => j :: q)) ++ pathsOfChildren cs := by
  rw [pathsOfChildren_cons, h]

theorem pathsOfChildren_append (l1 l2 : List Node) :
    pathsOfChildren (l1 ++ l2) = pathsOfChildren l1 ++ pathsOfChildren l2 := by
  induction l1 with
  | nil => rfl
  | cons c cs ih =>
    rw [List.cons_append, pathsOfChildren_cons, pathsOfChildren_cons, ih]
    rw [List.append_assoc]

theorem allPaths_leaf (i v : Nat) : allPaths (Node.mk (some i) v []) = [] := rfl

theorem countNodes_leaf (i v : Nat) : countNodes (Node.mk (some i) v []) = 1 := rfl

theorem nil_not_mem_pathsOfChildren (cs : List Node) :
    [] ∉ pathsOfChildren cs := by
  induction cs with
  | nil => simp [pathsOfChildren]
  | cons c cs ih =>
    rw [pathsOfChildren_cons]
    intro h
    rcases List.mem_append.1 h with h | h
    · cases hit : c.item with
      | none => rw [hit] at h; simp at h
      | some j =>
        rw [hit] at h
        rcases List.mem_cons.1 h with h | h
        · exact absurd h (by simp)
        · obtain ⟨q, -, hq⟩ := List.mem_map.1 h
          exact absurd hq (by simp)
    · exact ih h

theorem nil_not_mem_allPaths (n : Node) : [] ∉ allPaths n := by
  obtain ⟨it, f, cs⟩ := n
  rw [allPaths_mk]
  exact nil_not_mem_pathsOfChildren cs

theorem count_map_cons_self (i : Nat) (X : List (List Nat)) (q' : List Nat) :
    (X.map (fun q => i :: q)).count (i :: q') = X.count q' := by
  induction X with
  | nil => rfl
  | cons x X ih =>
    rw [List.map_cons, List.count_cons, List.count_cons, ih]
    by_cases h : q' = x
    · simp [h]
    · simp [h]

theorem count_map_cons_ne_head {i j : Nat} (hne : j ≠ i) (X : List (List Nat))
    (q' : List Nat) : (X.map (fun q => i :: q)).count (j :: q') = 0 := by
  induction X with
  | nil => rfl
  | cons x X ih =>
    rw [List.map_cons, List.count_cons, ih]
    simp
    intro hc
    exact absurd hc.symm hne

theorem count_map_cons_nil (i : Nat) (X : List (List Nat)) :
    (X.map (fun q => i :: q)).count [] = 0 := by
  induction X with
  | nil => rfl
  | cons x X ih =>
    rw [List.map_cons, List.count_cons, ih]
    simp

theorem countNodes_addPath : ∀ (rest : List Nat) (n : Node) (i : Nat),
    countNodes (addPath n i rest).1 =
      countNodes n + ((addPath n i rest).2).length := by
  intro rest
  induction rest with
  | nil =>
    intro n i
    obtain ⟨it, f, cs⟩ := n
    cases hsp : splitAtItem cs i with
    | some z =>
      obtain ⟨pre, c, post⟩ := z
      obtain ⟨hcs, hci, hpre⟩ := splitAtItem_some_decomp hsp
      subst hcs
      rw [addPath_found_nil_fst hsp it f, addPath_found_nil_snd hsp it f]
      rw [countNodes_mk, countNodes_mk, countChildren_append,
        countChildren_append, countChildren_cons, countChildren_cons,
        countNodes_bumpNode]
      simp
    | none =>
      have hfc : findChild cs i = none := (splitAtItem_none_iff cs i).1 hsp
      rw [addPath_none_nil_fst hsp it f, addPath_none_nil_snd hsp it f]
      rw [countNodes_mk, countNodes_mk, countChildren_append,
        countChildren_cons]
      simp [countNodes_leaf, countChildren]
      omega
  | cons r rs ih =>
    intro n i
    obtain ⟨it, f, cs⟩ := n
    cases hsp : splitAtItem cs i with
    | some z =>
      obtain ⟨pre, c, post⟩ := z
      obtain ⟨hcs, hci, hpre⟩ := splitAtItem_some_decomp hsp
      subst hcs
      rw [addPath_found_cons_fst hsp it f r rs, addPath_found_cons_snd hsp it f r rs]
      rw [countNodes_mk, countNodes_mk, countChildren_append,
        countChildren_append, countChildren_cons, countChildren_cons]
      rw [ih (bumpNode c) r, countNodes_bumpNode]
      simp
      omega
    | none =>
      have hfc : findChild cs i = none := (splitAtItem_none_iff cs i).1 hsp
      rw [addPath_none_cons_fst hsp it f r rs, addPath_none_cons_snd hsp it f r rs]
      rw [countNodes_mk, countNodes_mk, countChildren_append,
        countChildren_cons]
      rw [ih (Node.mk (some i) 1 []) r, countNodes_leaf]
      simp [countChildren]
      omega

theorem length_allPaths_addPath : ∀ (rest : List Nat) (n : Node) (i : Nat),
    (allPaths (addPath n i rest).1).length =
      (allPaths n).length + ((addPath n i rest).2).length := by
  intro rest
  induction rest with
  | nil =>
    intro n i
    obtain ⟨it, f, cs⟩ := n
    cases hsp : splitAtItem cs i with
    | some z =>
      obtain ⟨pre, c, post⟩ := z
      obtain ⟨hcs, hci, hpre⟩ := splitAtItem_some_decomp hsp
      subst hcs
      rw [addPath_found_nil_fst hsp it f, addPath_found_nil_snd hsp it f]
      rw [allPaths_mk, allPaths_mk, pathsOfChildren_append,
        pathsOfChildren_append, pathsOfChildren_cons_some
          (bumpNode_item c ▸ hci), pathsOfChildren_cons_some hci,
        allPaths_bumpNode]
      simp
    | none =>
      rw [addPath_none_nil_fst hsp it f, addPath_none_nil_snd hsp it f]
      rw [allPaths_mk, allPaths_mk, pathsOfChildren_append,
        pathsOfChildren_cons_some (rfl : (Node.mk (some i) 1 []).item = some i),
        allPaths_leaf]
      simp [pathsOfChildren]
  | cons r rs ih =>
    intro n i
    obtain ⟨it, f, cs⟩ := n
    cases hsp : splitAtItem cs i with
    | some z =>
      obtain ⟨pre, c, post⟩ := z
      obtain ⟨hcs, hci, hpre⟩ := splitAtItem_some_decomp hsp
      subst hcs
      have hitem : (addPath (bumpNode c) r rs).1.item = some i := by
        rw [(addPath_root_item _ _ _).1, bumpNode_item]; exact hci
      rw [addPath_found_cons_fst hsp it f r rs,
        addPath_found_cons_snd hsp it f r rs]
      rw [allPaths_mk, allPaths_mk, pathsOfChildren_append,
        pathsOfChildren_append, pathsOfChildren_cons_some hitem,
        pathsOfChildren_cons_some hci]
      have := ih (bumpNode c) r
      rw [allPaths_bumpNode] at this
      simp [this]
      omega
    | none =>
      have hitem : (addPath (Node.mk (some i) 1 []) r rs).1.item = some i := by
        rw [(addPath_root_item _ _ _).1, item_mk]
      rw [addPath_none_cons_fst hsp it f r rs,
        addPath_none_cons_snd hsp it f r rs]
      rw [allPaths_mk, allPaths_mk, pathsOfChildren_append,
        pathsOfChildren_cons_some hitem]
      have := ih (Node.mk (some i) 1 []) r
      rw [allPaths_leaf] at this
      simp [pathsOfChildren, this]

theorem count_allPaths_addPath : ∀ (rest : List Nat) (n : Node) (i : Nat)
    (q : List Nat),
    (allPaths (addPath n i rest).1).count q =
      (allPaths n).count q + ((addPath n i rest).2).count q := by
  intro rest
  induction rest with
  | nil =>
    intro n i q
    obtain ⟨it, f, cs⟩ := n
    cases hsp : splitAtItem cs i with
    | some z =>
      obtain ⟨pre, c, post⟩ := z
      obtain ⟨hcs, hci, hpre⟩ := splitAtItem_some_decomp hsp
      subst hcs
      rw [addPath_found_nil_fst hsp it f, addPath_found_nil_snd hsp it f]
      rw [allPaths_mk, allPaths_mk, pathsOfChildren_append,
        pathsOfChildren_append, pathsOfChildren_cons_some
          (bumpNode_item c ▸ hci), pathsOfChildren_cons_some hci,
        allPaths_bumpNode]
      simp
    | none =>
      rw [addPath_none_nil_fst hsp it f, addPath_none_nil_snd hsp it f]
      rw [allPaths_mk, allPaths_mk, pathsOfChildren_append,
        pathsOfChildren_cons_some (rfl : (Node.mk (some i) 1 []).item = some i),
        allPaths_leaf]
      simp [pathsOfChildren, List.count_append]
  | cons r rs ih =>
    intro n i q
    obtain ⟨it, f, cs⟩ := n
    cases hsp : splitAtItem cs i with
    | some z =>
      obtain ⟨pre, c, post⟩ := z
      obtain ⟨hcs, hci, hpre⟩ := splitAtItem_some_decomp hsp
      subst hcs
      have hitem : (addPath (bumpNode c) r rs).1.item = some i := by
        rw [(addPath_root_item _ _ _).1, bumpNode_item]; exact hci
      rw [addPath_found_cons_fst hsp it f r rs,
        addPath_found_cons_snd hsp it f r rs]
      rw [allPaths_mk, allPaths_mk, pathsOfChildren_append,
        pathsOfChildren_append, pathsOfChildren_cons_some hitem,
        pathsOfChildren_cons_some hci]
      have hih := ih (bumpNode c) r
      cases q with
      | nil =>
        rw [List.count_append, List.count_append, List.count_append,
          List.count_append, List.count_cons, List.count_cons,
          count_map_cons_nil, count_map_cons_nil, count_map_cons_nil]
        simp
      | cons j q' =>
        by_cases hj : j = i
        · subst hj
          rw [List.count_append, List.count_append, List.count_append,
            List.count_append, List.count_cons, List.count_cons,
            count_map_cons_self, count_map_cons_self, count_map_cons_self]
          have := hih q'
          rw [allPaths_bumpNode] at this
          rw [this]
          omega
        · rw [List.count_append, List.count_append, List.count_append,
            List.count_append, List.count_cons, List.count_cons,
            count_map_cons_ne_head hj, count_map_cons_ne_head hj,
            count_map_cons_ne_head hj]
          have hne2 : ¬ ((j :: q') = [i]) := by simp [hj]
          simp [hne2]
    | none =>
      have hitem : (addPath (Node.mk (some i) 1 []) r rs).1.item = some i := by
        rw [(addPath_root_item _ _ _).1, item_mk]
      rw [addPath_none_cons_fst hsp it f r rs,
        addPath_none_cons_snd hsp it f r rs]
      rw [allPaths_mk, allPaths_mk, pathsOfChildren_append,
        pathsOfChildren_cons_some hitem]
      have hih := ih (Node.mk (some i) 1 []) r
      cases q with
      | nil =>
        rw [List.count_append, List.count_append, List.count_cons,
          List.count_cons, count_map_cons_nil, count_map_cons_nil]
        simp [pathsOfChildren]
      | cons j q' =>
        by_cases hj : j = i
        · subst hj
          rw [List.count_append, List.count_append, List.count_cons,
            List.count_cons, count_map_cons_self, count_map_cons_self]
          have := hih q'
          rw [allPaths_leaf] at this
          rw [this]
          simp [pathsOfChildren]
        · rw [List.count_append, List.count_append, List.count_cons,
            List.count_cons, count_map_cons_ne_head hj,
            count_map_cons_ne_head hj]
          have hne2 : ¬ ((j :: q') = [i]) := by simp [hj]
          simp [pathsOfChildren, hne2]

/-! ### Build invariant: tree side -/

theorem exists_getLastQ {q : List Nat} (h : q ≠ []) : ∃ x, q.getLast? = some x := by
  induction q with
  | nil => exact absurd rfl h
  | cons a q ih =>
    cases q with
    | nil => exact ⟨a, rfl⟩
    | cons b q' =>
      obtain ⟨x, hx⟩ := ih (by simp)
      exact ⟨x, by rw [List.getLast?_cons_cons]; exact hx⟩

theorem treeInv_root : TreeInv (Node.mk none 0 []) [] := by
  constructor
  · intro q hq
    cases q with
    | nil => exact absurd rfl hq
    | cons j q' =>
      have h : hasPath (Node.mk none 0 []) (j :: q') = false :=
        hasPath_cons_none (show findChild [] j = none from rfl) none 0 q'
      simp [h]
  · intro q hq
    cases q with
    | nil => exact absurd rfl hq
    | cons j q' =>
      have h : freqAt (Node.mk none 0 []) (j :: q') = 0 :=
        freqAt_cons_none (show findChild [] j = none from rfl) none 0 q'
      simp [h]
  · simp [allPaths_mk, pathsOfChildren]
  · intro q
    constructor
    · intro hmem
      simp [allPaths_mk, pathsOfChildren] at hmem
    · rintro ⟨hne, hp⟩
      cases q with
      | nil => exact absurd rfl hne
      | cons j q' =>
        rw [hasPath_cons_none (show findChild [] j = none from rfl) none 0 q'] at hp
        exact absurd hp (by simp)
  · rfl

theorem countL_pos_iff_mem {α : Type} [BEq α] [LawfulBEq α] {a : α}
    {l : List α} : 0 < l.count a ↔ a ∈ l := by
  induction l with
  | nil => simp [List.count_nil]
  | cons x l ih =>
    rw [List.count_cons, List.mem_cons]
    by_cases h : a = x
    · simp [h]
    · have hxa : ¬ x = a := fun hh => h hh.symm
      simp [h, hxa, ih]

theorem countL_eq_zero {α : Type} [BEq α] [LawfulBEq α] {a : α} {l : List α} :
    l.count a = 0 ↔ a ∉ l := by
  constructor
  · intro h hmem
    have := countL_pos_iff_mem.2 hmem
    omega
  · intro h
    cases hc : l.count a with
    | zero => rfl
    | succ n =>
      exact absurd (countL_pos_iff_mem.1 (by omega)) h

theorem nodupL_iff_count {α : Type} [BEq α] [LawfulBEq α] (l : List α) :
    l.Nodup ↔ ∀ a, l.count a ≤ 1 := by
  induction l with
  | nil => simp
  | cons x l ih =>
    rw [List.nodup_cons, ih]
    constructor
    · intro ⟨hx, h⟩ a
      rw [List.count_cons]
      by_cases ha : a = x
      · subst ha
        have : l.count a = 0 := countL_eq_zero.2 hx
        simp [this]
      · have := h a
        have hxa : ¬ x = a := fun hh => ha hh.symm
        simp only [List.count_cons] at this ⊢
        simp [hxa]
        omega
    · intro h
      constructor
      · intro hmem
        have h2 := h x
        rw [List.count_cons] at h2
        simp at h2
        have := countL_pos_iff_mem.2 hmem
        omega
      · intro a
        have h2 := h a
        rw [List.count_cons] at h2
        omega

theorem treeInv_step {tree : Node} {done : List (List Nat)}
    (inv : TreeInv tree done) (i : Nat) (rest : List Nat) :
    TreeInv (addPath tree i rest).1 (done ++ [i :: rest]) := by
  have hT4 := newPaths_addPath rest tree i
  have hndNews : ((addPath tree i rest).2).Nodup := by
    rw [hT4]; exact (segsOf_nodup _).filter _
  constructor
  · intro q hq
    rw [hasPath_addPath rest tree i q]
    simp only [Bool.or_eq_true, decide_eq_true_eq]
    rw [inv.path_iff q hq, mem_segsOf]
    constructor
    · rintro (⟨l, hl, hseg⟩ | ⟨-, hseg⟩)
      · exact ⟨l, List.mem_append_left _ hl, hseg⟩
      · exact ⟨i :: rest, List.mem_append_right _ (by simp), hseg⟩
    · rintro ⟨l, hl, hseg⟩
      rcases List.mem_append.1 hl with hl | hl
      · exact Or.inl ⟨l, hl, hseg⟩
      · rw [List.mem_singleton] at hl
        subst hl
        exact Or.inr ⟨hq, hseg⟩
  · intro q hq
    rw [freqAt_addPath rest tree i q, inv.freq_eq q hq, List.countP_append]
    by_cases hs : isegB q (i :: rest) = true
    · have hm : q ∈ segsOf (i :: rest) := (mem_segsOf _ _).2 ⟨hq, hs⟩
      simp [List.countP_cons, hs, hm]
    · have hm : q ∉ segsOf (i :: rest) := fun hmem => hs ((mem_segsOf _ _).1 hmem).2
      simp [List.countP_cons, hs, hm]
  · rw [nodupL_iff_count]
    intro q
    rw [count_allPaths_addPath rest tree i q]
    cases hhp : hasPath tree q with
    | true =>
      have hnotnew : q ∉ (addPath tree i rest).2 := by
        rw [hT4]
        intro hmem
        have := (List.mem_filter.1 hmem).2
        rw [hhp] at this
        simp at this
      have h0 : ((addPath tree i rest).2).count q = 0 :=
        countL_eq_zero.2 hnotnew
      have h1 : (allPaths tree).count q ≤ 1 :=
        (nodupL_iff_count _).1 inv.ap_nodup q
      omega
    | false =>
      have hnot : q ∉ allPaths tree := by
        intro hmem
        have := (inv.ap_mem q).1 hmem
        rw [hhp] at this
        exact absurd this.2 (by simp)
      have h0 : (allPaths tree).count q = 0 := countL_eq_zero.2 hnot
      have h1 : ((addPath tree i rest).2).count q ≤ 1 :=
        (nodupL_iff_count _).1 hndNews q
      omega
  · intro q
    have hcnt := count_allPaths_addPath rest tree i q
    constructor
    · intro hmem
      have hpos : 0 < (allPaths (addPath tree i rest).1).count q :=
        countL_pos_iff_mem.2 hmem
      rw [hcnt] at hpos
      rw [hasPath_addPath rest tree i q]
      by_cases ht : q ∈ allPaths tree
      · obtain ⟨hne, hp⟩ := (inv.ap_mem q).1 ht
        exact ⟨hne, by simp [hp]⟩
      · have : 0 < ((addPath tree i rest).2).count q := by
          have := countL_eq_zero.2 ht
          omega
        have hmem2 : q ∈ (addPath tree i rest).2 := countL_pos_iff_mem.1 this
        rw [hT4] at hmem2
        obtain ⟨hms, -⟩ := List.mem_filter.1 hmem2
        obtain ⟨hne, -⟩ := (mem_segsOf _ _).1 hms
        exact ⟨hne, by simp [hms]⟩
    · rintro ⟨hne, h'⟩
      rw [hasPath_addPath rest tree i q] at h'
      rw [← countL_pos_iff_mem, hcnt]
      rcases Bool.or_eq_true_iff.1 h' with hp | hm
      · have : q ∈ allPaths tree := (inv.ap_mem q).2 ⟨hne, hp⟩
        have := List.count_pos_iff_mem.2 this
        omega
      · rw [decide_eq_true_eq] at hm
        cases hhp : hasPath tree q with
        | true =>
          have : q ∈ allPaths tree := (inv.ap_mem q).2 ⟨hne, hhp⟩
          have := List.count_pos_iff_mem.2 this
          omega
        | false =>
          have : q ∈ (addPath tree i rest).2 := by
            rw [hT4]
            exact List.mem_filter.2 ⟨hm, by rw [hhp]; rfl⟩
          have := List.count_pos_iff_mem.2 this
          omega
  · rw [countNodes_addPath rest tree i, inv.cnt, length_allPaths_addPath rest tree i]
    omega

/-! ### Build invariant: table side (pointer registration) -/

theorem shape_modifyAssoc (t : Table) (x : Nat) (g : ItemHeader → ItemHeader)
    (hg : ∀ v, (g v).item = v.item ∧ (g v).frequency = v.frequency) :
    (modifyAssoc t x g).map (fun e => (e.1, e.2.item, e.2.frequency)) =
      t.map (fun e => (e.1, e.2.item, e.2.frequency)) := by
  induction t with
  | nil => rfl
  | cons e t ih =>
    obtain ⟨k, v⟩ := e
    by_cases h : k = x
    · subst h
      rw [modifyAssoc, if_pos rfl]
      simp [(hg v).1, (hg v).2]
    · rw [modifyAssoc, if_neg h]
      simp [ih]

theorem keys_of_shape {t t' : Table}
    (hsh : t'.map (fun e => (e.1, e.2.item, e.2.frequency)) =
      t.map (fun e => (e.1, e.2.item, e.2.frequency))) :
    t'.map Prod.fst = t.map Prod.fst := by
  have h1 := congrArg (List.map (fun z : Nat × Nat × Nat => z.1)) hsh
  rw [List.map_map, List.map_map] at h1
  exact h1

theorem containKey_of_shape {t t' : Table}
    (hsh : t'.map (fun e => (e.1, e.2.item, e.2.frequency)) =
      t.map (fun e => (e.1, e.2.item, e.2.frequency))) (x : Nat) :
    containKey t' x = containKey t x := by
  rw [Bool.eq_iff_iff, containKey_iff_mem, containKey_iff_mem,
    keys_of_shape hsh]

theorem addIHP_effect {t : Table} {q : List Nat} {x : Nat}
    (hlast : q.getLast? = some x) (hck : containKey t x = true)
    (hfresh : q ∉ ptrsOf t x) :
    ∃ t', addItemHeaderPointer t (NodeRef.mk q.getLast? q) = Except.ok t' ∧
      (∀ y, ptrsOf t' y = if y = x then ptrsOf t x ++ [q] else ptrsOf t y) ∧
      t'.map (fun e => (e.1, e.2.item, e.2.frequency)) =
        t.map (fun e => (e.1, e.2.item, e.2.frequency)) := by
  rw [addItemHeaderPointer, hlast]
  simp only [hck, if_true]
  refine ⟨_, rfl, ?_, ?_⟩
  · intro y
    by_cases hy : y = x
    · subst hy
      rw [if_pos rfl]
      unfold ptrsOf
      rw [alookup_modifyAssoc_self]
      obtain ⟨h, hh⟩ := Option.isSome_iff_exists.1 hck
      rw [hh]
      unfold ptrsOf at hfresh
      rw [hh] at hfresh
      show insertSet h.pointers q = h.pointers ++ [q]
      exact insertSet_of_not_mem hfresh
    · rw [if_neg hy]
      unfold ptrsOf
      rw [alookup_modifyAssoc_ne t x _ y (fun hc => hy hc.symm)]
  · exact shape_modifyAssoc t x _ (fun v => ⟨rfl, rfl⟩)

theorem registerNew_ok : ∀ (qs : List (List Nat)) (t : Table),
    (∀ q ∈ qs, ∃ x, q.getLast? = some x ∧ containKey t x = true) →
    qs.Nodup →
    (∀ q ∈ qs, ∀ y, q ∉ ptrsOf t y) →
    ∃ t', registerNew t qs = Except.ok t' ∧
      (∀ y, ptrsOf t' y =
        ptrsOf t y ++ qs.filter (fun q => decide (q.getLast? = some y))) ∧
      t'.map (fun e => (e.1, e.2.item, e.2.frequency)) =
        t.map (fun e => (e.1, e.2.item, e.2.frequency)) := by
  intro qs
  induction qs with
  | nil =>
    intro t _ _ _
    exact ⟨t, rfl, by simp, rfl⟩
  | cons q qs ih =>
    intro t hlast hnd hfresh
    obtain ⟨x, hx, hck⟩ := hlast q (by simp)
    obtain ⟨t1, h1, hptr1, hsh1⟩ := addIHP_effect hx hck (hfresh q (by simp) x)
    rw [List.nodup_cons] at hnd
    obtain ⟨t', h2, hptr2, hsh2⟩ := ih t1
      (fun q' hq' => by
        obtain ⟨x', hx', hck'⟩ := hlast q' (List.mem_cons_of_mem _ hq')
        exact ⟨x', hx', by rw [containKey_of_shape hsh1]; exact hck'⟩)
      hnd.2
      (fun q' hq' y => by
        rw [hptr1 y]
        by_cases hy : y = x
        · rw [if_pos hy]
          intro hmem
          rcases List.mem_append.1 hmem with hmem | hmem
          · exact hfresh q' (List.mem_cons_of_mem _ hq') y (hy ▸ hmem)
          · rw [List.mem_singleton] at hmem
            exact hnd.1 (hmem ▸ hq')
        · rw [if_neg hy]
          exact hfresh q' (List.mem_cons_of_mem _ hq') y)
    refine ⟨t', ?_, ?_, hsh2.trans hsh1⟩
    · rw [registerNew, h1]
      exact h2
    · intro y
      rw [hptr2 y, hptr1 y, List.filter_cons]
      by_cases hy : y = x
      · subst hy
        simp [hx, List.append_assoc]
      · have hcond : ¬ ((decide (q.getLast? = some y)) = true) := by
          simp only [hx, decide_eq_true_eq, Option.some.injEq]
          exact fun hcc => hy hcc.symm
        rw [if_neg hy, if_neg hcond]

/-! ### Build invariant: the full tree-building fold -/

theorem insertAndRegister_cons (tree : Node) (t : Table) (i : Nat)
    (rest : List Nat) :
    insertAndRegister tree t (i :: rest) =
      (match registerNew t (addPath tree i rest).2 with
       | Except.ok t' => Except.ok ((addPath tree i rest).1, t')
       | Except.error e => Except.error e) := rfl

theorem buildTreeAll_cons (tree : Node) (t : Table) (l : List Nat)
    (ls : List (List Nat)) :
    buildTreeAll tree t (l :: ls) =
      (match insertAndRegister tree t l with
       | Except.ok st => buildTreeAll st.1 st.2 ls
       | Except.error e => Except.error e) := rfl

theorem buildTreeAll_ok_nonempty : ∀ (seqs : List (List Nat)) (tree : Node)
    (t : Table) (res : Node × Table),
    buildTreeAll tree t seqs = Except.ok res → ∀ l ∈ seqs, l ≠ [] := by
  intro seqs
  induction seqs with
  | nil => intro tree t res _ l hl; simp at hl
  | cons l ls ih =>
    intro tree t res hok l' hl'
    rw [buildTreeAll_cons] at hok
    cases l with
    | nil =>
      rw [show insertAndRegister tree t [] = Except.error PyErr.indexError
        from rfl] at hok
      exact absurd hok (by simp)
    | cons i rest =>
      cases hins : insertAndRegister tree t (i :: rest) with
      | error e => rw [hins] at hok; exact absurd hok (by simp)
      | ok st =>
        rw [hins] at hok
        rcases List.mem_cons.1 hl' with rfl | hl'
        · simp
        · exact ih st.1 st.2 res hok l' hl'

theorem buildTreeAll_inv : ∀ (seqs : List (List Nat)) (tree : Node)
    (t base : Table) (done : List (List Nat)),
    (∀ l ∈ seqs, l ≠ []) →
    (∀ l ∈ seqs, ∀ j ∈ l, containKey base j = true) →
    TreeInv tree done →
    TableInv t base tree →
    ∃ tree' t', buildTreeAll tree t seqs = Except.ok (tree', t') ∧
      TreeInv tree' (done ++ seqs) ∧ TableInv t' base tree' := by
  intro seqs
  induction seqs with
  | nil =>
    intro tree t base done _ _ hTree hTab
    exact ⟨tree, t, rfl, by simpa using hTree, hTab⟩
  | cons l ls ih =>
    intro tree t base done hne hkeys hTree hTab
    cases l with
    | nil => exact absurd rfl (hne [] (by simp))
    | cons i rest =>
      have hT4 := newPaths_addPath rest tree i
      have hnews_mem : ∀ q ∈ (addPath tree i rest).2,
          q ∈ segsOf (i :: rest) ∧ hasPath tree q = false := by
        intro q hq
        rw [hT4] at hq
        obtain ⟨h1, h2⟩ := List.mem_filter.1 hq
        exact ⟨h1, by cases hhp : hasPath tree q with
          | false => rfl
          | true => rw [hhp] at h2; simp at h2⟩
      obtain ⟨t1, hreg, hptr1, hsh1⟩ := registerNew_ok (addPath tree i rest).2 t
        (by
          intro q hq
          obtain ⟨hseg, -⟩ := hnews_mem q hq
          obtain ⟨hqne, hiseg⟩ := (mem_segsOf _ _).1 hseg
          obtain ⟨x, hx⟩ := exists_getLastQ hqne
          refine ⟨x, hx, ?_⟩
          have hxl : x ∈ i :: rest := mem_of_isegB hiseg (getLastQ_mem hx)
          have hb := hkeys (i :: rest) (by simp) x hxl
          rw [containKey_of_shape hTab.shape]
          exact hb)
        (by rw [hT4]; exact (segsOf_nodup _).filter _)
        (by
          intro q hq y hmem
          obtain ⟨-, hhp⟩ := hnews_mem q hq
          have := (hTab.ptr_mem y q).1 hmem
          rw [hhp] at this
          exact absurd this.2.1 (by simp))
      have hTree1 : TreeInv (addPath tree i rest).1 (done ++ [i :: rest]) :=
        treeInv_step hTree i rest
      have hTab1 : TableInv t1 base (addPath tree i rest).1 := by
        constructor
        · exact hsh1.trans hTab.shape
        · intro x q
          rw [hptr1 x, List.mem_append]
          constructor
          · rintro (hmem | hmem)
            · obtain ⟨hqne, hhp, hlast⟩ := (hTab.ptr_mem x q).1 hmem
              refine ⟨hqne, ?_, hlast⟩
              rw [hasPath_addPath rest tree i q, hhp]
              simp
            · obtain ⟨hmem2, hlast⟩ := List.mem_filter.1 hmem
              obtain ⟨hseg, hhp⟩ := hnews_mem q hmem2
              obtain ⟨hqne, -⟩ := (mem_segsOf _ _).1 hseg
              refine ⟨hqne, ?_, by simpa using hlast⟩
              rw [hasPath_addPath rest tree i q]
              simp [hseg]
          · rintro ⟨hqne, hhp, hlast⟩
            rw [hasPath_addPath rest tree i q] at hhp
            rcases Bool.or_eq_true_iff.1 hhp with hp | hm
            · exact Or.inl ((hTab.ptr_mem x q).2 ⟨hqne, hp, hlast⟩)
            · rw [decide_eq_true_eq] at hm
              cases hp2 : hasPath tree q with
              | true => exact Or.inl ((hTab.ptr_mem x q).2 ⟨hqne, hp2, hlast⟩)
              | false =>
                refine Or.inr (List.mem_filter.2 ⟨?_, by simp [hlast]⟩)
                rw [hT4]
                exact List.mem_filter.2 ⟨hm, by rw [hp2]; rfl⟩
        · intro x
          rw [hptr1 x]
          rw [List.nodup_append]
          refine ⟨hTab.ptr_nodup x, List.Nodup.filter _ (by
            rw [hT4]; exact (segsOf_nodup _).filter _), ?_⟩
          intro q hq hq2
          obtain ⟨hqmem, -⟩ := List.mem_filter.1 hq2
          obtain ⟨-, hhp⟩ := hnews_mem q hqmem
          have := (hTab.ptr_mem x q).1 hq
          rw [hhp] at this
          exact absurd this.2.1 (by simp)
      obtain ⟨tree', t', hok, hTree', hTab'⟩ := ih (addPath tree i rest).1 t1
        base (done ++ [i :: rest])
        (fun l hl => hne l (List.mem_cons_of_mem _ hl))
        (fun l hl => hkeys l (List.mem_cons_of_mem _ hl))
        hTree1 hTab1
      refine ⟨tree', t', ?_, ?_, hTab'⟩
      · rw [buildTreeAll_cons, insertAndRegister_cons, hreg]
        exact hok
      · rw [List.append_assoc] at hTree'
        simpa using hTree'

/-! ### Facts about the freshly built header table -/

theorem containKey_append {β : Type} (t1 t2 : List (Nat × β)) (x : Nat) :
    containKey (t1 ++ t2) x = (containKey t1 x || containKey t2 x) := by
  rw [Bool.eq_iff_iff]
  simp only [Bool.or_eq_true]
  rw [containKey_iff_mem, containKey_iff_mem, containKey_iff_mem,
    List.map_append, List.mem_append]

theorem foldl_tableAdd_fresh : ∀ (kvs : List (Nat × Nat)) (t : Table),
    (∀ kv ∈ kvs, containKey t kv.1 = false) → (kvs.map Prod.fst).Nodup →
    kvs.foldl (fun t kv => tableAdd t kv.1 kv.2) t =
      t ++ kvs.map (fun kv => (kv.1, ItemHeader.mk kv.1 kv.2 [])) := by
  intro kvs
  induction kvs with
  | nil => intro t _ _; simp
  | cons kv kvs ih =>
    intro t hfresh hnd
    obtain ⟨k, v⟩ := kv
    rw [List.map_cons, List.nodup_cons] at hnd
    simp only [List.foldl_cons]
    rw [show tableAdd t k v = t ++ [(k, ItemHeader.mk k v [])] from
      dictSet_of_not_contained t k _ (hfresh (k, v) (by simp))]
    rw [ih (t ++ [(k, ItemHeader.mk k v [])])
      (by
        intro kv' hkv'
        rw [containKey_append]
        have h1 : containKey t kv'.1 = false :=
          hfresh kv' (List.mem_cons_of_mem _ hkv')
        have h2 : containKey [(k, ItemHeader.mk k v [])] kv'.1 = false := by
          have hne : kv'.1 ≠ k := by
            intro hc
            exact hnd.1 (hc ▸ List.mem_map.2 ⟨kv', hkv', rfl⟩)
          have hkk : ¬ k = kv'.1 := fun hc => hne hc.symm
          simp [containKey, alookup, hkk]
        rw [h1, h2]
        rfl)
      hnd.2]
    simp

theorem count_of_nodup {α : Type} [BEq α] [LawfulBEq α] {l : List α}
    (hnd : l.Nodup) (x : α) : l.count x = if x ∈ l then 1 else 0 := by
  by_cases h : x ∈ l
  · rw [if_pos h]
    have h1 := countL_pos_iff_mem.2 h
    have h2 := (nodupL_iff_count l).1 hnd x
    omega
  · rw [if_neg h]
    exact countL_eq_zero.2 h

theorem lookupD_rawFold : ∀ (dds : List (List Nat)) (d0 : List (Nat × Nat))
    (x : Nat), (∀ l ∈ dds, l.Nodup) →
    lookupD (dds.foldl (fun d l => bumpAll 1 l d) d0) x =
      lookupD d0 x + dds.countP (fun l => decide (x ∈ l)) := by
  intro dds
  induction dds with
  | nil => intro d0 x _; simp
  | cons l dds ih =>
    intro d0 x hnd
    simp only [List.foldl_cons]
    rw [ih (bumpAll 1 l d0) x (fun l' hl' => hnd l' (List.mem_cons_of_mem _ hl'))]
    rw [lookupD_bumpAll, count_of_nodup (hnd l (by simp)) x]
    rw [List.countP_cons]
    by_cases h : x ∈ l
    · simp [h]
      omega
    · simp [h]

theorem containKey_rawFold : ∀ (dds : List (List Nat)) (d0 : List (Nat × Nat))
    (x : Nat),
    (containKey (dds.foldl (fun d l => bumpAll 1 l d) d0) x = true ↔
      (containKey d0 x = true ∨ ∃ l ∈ dds, x ∈ l)) := by
  intro dds
  induction dds with
  | nil => intro d0 x; simp
  | cons l dds ih =>
    intro d0 x
    simp only [List.foldl_cons]
    rw [ih (bumpAll 1 l d0) x]
    rw [show containKey (bumpAll 1 l d0) x = (containKey d0 x || decide (x ∈ l))
      from containKey_bumpAll 1 l d0 x]
    simp only [Bool.or_eq_true, decide_eq_true_eq, List.mem_cons]
    constructor
    · rintro ((h | h) | ⟨l', hl', hx⟩)
      · exact Or.inl h
      · exact Or.inr ⟨l, Or.inl rfl, h⟩
      · exact Or.inr ⟨l', Or.inr hl', hx⟩
    · rintro (h | ⟨l', (rfl | hl'), hx⟩)
      · exact Or.inl (Or.inl h)
      · exact Or.inl (Or.inr hx)
      · exact Or.inr ⟨l', hl', hx⟩

theorem keysNodup_rawFold : ∀ (dds : List (List Nat)) (d0 : List (Nat × Nat)),
    (d0.map Prod.fst).Nodup →
    (((dds.foldl (fun d l => bumpAll 1 l d) d0)).map Prod.fst).Nodup := by
  intro dds
  induction dds with
  | nil => intro d0 h; exact h
  | cons l dds ih =>
    intro d0 h
    exact ih (bumpAll 1 l d0) (keys_nodup_bumpAll 1 l d0 h)

theorem fpDedups_nodup (item_sets : List (List Nat)) :
    ∀ l ∈ fpDedups item_sets, l.Nodup := by
  intro l hl
  obtain ⟨s, -, rfl⟩ := List.mem_map.1 hl
  exact pyDedup_nodup s

theorem buildIHT_eq (ms : Nat) (iss : List (List Nat)) :
    buildItemHeaderTable ms iss =
      (sortDesc (fun kv => kv.2)
        ((iss.foldl (fun d l => bumpAll 1 l d) []).filter
          (fun kv => ms ≤ kv.2))).foldl
        (fun t kv => tableAdd t kv.1 kv.2) [] := rfl

theorem keysNodup_srt (ms : Nat) (iss : List (List Nat)) :
    ((sortDesc (fun kv => kv.2)
      ((iss.foldl (fun d l => bumpAll 1 l d) []).filter
        (fun kv => ms ≤ kv.2))).map Prod.fst).Nodup := by
  have h1 : (((iss.foldl (fun d l => bumpAll 1 l d) [])).map Prod.fst).Nodup :=
    keysNodup_rawFold iss [] (by simp)
  have h2 : (((iss.foldl (fun d l => bumpAll 1 l d) []).filter
      (fun kv => ms ≤ kv.2)).map Prod.fst).Nodup :=
    List.Nodup.sublist ((List.filter_sublist _).map Prod.fst) h1
  exact ((sortDesc_perm (fun kv => kv.2) _).map Prod.fst).nodup_iff.2 h2

theorem fpTable0_eq (ms : Nat) (iss : List (List Nat)) :
    fpTable0 ms iss =
      (sortDesc (fun kv => kv.2)
        (((fpDedups iss).foldl (fun d l => bumpAll 1 l d) []).filter
          (fun kv => ms ≤ kv.2))).map
        (fun kv => (kv.1, ItemHeader.mk kv.1 kv.2 [])) := by
  rw [fpTable0, buildIHT_eq]
  rw [foldl_tableAdd_fresh _ [] (fun kv _ => rfl) (keysNodup_srt ms (fpDedups iss))]
  simp

theorem fpTable0_keysNodup (ms : Nat) (iss : List (List Nat)) :
    ((fpTable0 ms iss).map Prod.fst).Nodup := by
  rw [fpTable0_eq, List.map_map]
  exact keysNodup_srt ms (fpDedups iss)

theorem lookupD_raw_eq_itemCount (iss : List (List Nat)) (x : Nat) :
    lookupD ((fpDedups iss).foldl (fun d l => bumpAll 1 l d) []) x =
      itemCount iss x := by
  rw [lookupD_rawFold (fpDedups iss) [] x (fpDedups_nodup iss)]
  simp [itemCount, lookupD, alookup]

theorem fpTable0_entries (ms : Nat) (iss : List (List Nat)) :
    ∀ e ∈ fpTable0 ms iss,
      e.2.item = e.1 ∧ e.2.pointers = [] ∧
      e.2.frequency = itemCount iss e.1 ∧ ms ≤ e.2.frequency := by
  rw [fpTable0_eq]
  intro e he
  obtain ⟨kv, hkv, rfl⟩ := List.mem_map.1 he
  have hkept := (mem_sortDesc _ _ kv).1 hkv
  obtain ⟨hraw, hms⟩ := List.mem_filter.1 hkept
  have hnodup : (((fpDedups iss).foldl (fun d l => bumpAll 1 l d) []).map
      Prod.fst).Nodup := keysNodup_rawFold (fpDedups iss) [] (by simp)
  have hlook : alookup ((fpDedups iss).foldl (fun d l => bumpAll 1 l d) [])
      kv.1 = some kv.2 := alookup_eq_some_of_mem hnodup (by
        obtain ⟨k, v⟩ := kv
        exact hraw)
  have hval : kv.2 = itemCount iss kv.1 := by
    rw [← lookupD_raw_eq_itemCount iss kv.1, lookupD, hlook]
    rfl
  refine ⟨rfl, rfl, by simpa using hval, ?_⟩
  simpa using (by simpa using hms : ms ≤ kv.2)

theorem fpTable0_contains (ms : Nat) (iss : List (List Nat)) (x : Nat) :
    containKey (fpTable0 ms iss) x = true ↔
      (0 < itemCount iss x ∧ ms ≤ itemCount iss x) := by
  rw [containKey_iff_mem, fpTable0_eq, List.map_map]
  have hperm := (sortDesc_perm (fun kv : Nat × Nat => kv.2)
    (((fpDedups iss).foldl (fun d l => bumpAll 1 l d) []).filter
      (fun kv => ms ≤ kv.2))).map (Prod.fst ∘ (fun kv => (kv.1,
        ItemHeader.mk kv.1 kv.2 [])))
  rw [hperm.mem_iff]
  have hnodup : (((fpDedups iss).foldl (fun d l => bumpAll 1 l d) []).map
      Prod.fst).Nodup := keysNodup_rawFold (fpDedups iss) [] (by simp)
  constructor
  · intro hmem
    obtain ⟨kv, hkv, hfst⟩ := List.mem_map.1 hmem
    obtain ⟨hraw, hms⟩ := List.mem_filter.1 hkv
    have hfst2 : kv.1 = x := hfst
    have hlook : alookup ((fpDedups iss).foldl (fun d l => bumpAll 1 l d) [])
        kv.1 = some kv.2 := alookup_eq_some_of_mem hnodup
      (by rw [Prod.mk.eta]; exact hraw)
    have hval : kv.2 = itemCount iss kv.1 := by
      rw [← lookupD_raw_eq_itemCount iss kv.1, lookupD, hlook]
      rfl
    rw [← hfst2]
    constructor
    · have hck : containKey ((fpDedups iss).foldl (fun d l => bumpAll 1 l d) [])
          kv.1 = true := by rw [containKey, hlook]; rfl
      obtain (hc | ⟨l, hl, hx⟩) :=
        (containKey_rawFold (fpDedups iss) [] kv.1).1 hck
      · exact absurd hc (by simp [containKey, alookup])
      · rw [itemCount]
        exact List.countP_pos.2 ⟨l, hl, by simpa using hx⟩
    · rw [← hval]
      simpa using hms
  · rintro ⟨hpos, hms⟩
    have hck : containKey ((fpDedups iss).foldl (fun d l => bumpAll 1 l d) [])
        x = true := by
      rw [containKey_rawFold]
      refine Or.inr ?_
      rw [itemCount] at hpos
      obtain ⟨l, hl, hx⟩ := List.countP_pos.1 hpos
      exact ⟨l, hl, by simpa using hx⟩
    obtain ⟨v, hlook⟩ := Option.isSome_iff_exists.1 hck
    have hval : v = itemCount iss x := by
      rw [← lookupD_raw_eq_itemCount iss x, lookupD, hlook]
      rfl
    refine List.mem_map.2 ⟨(x, v), List.mem_filter.2
      ⟨mem_of_alookup_eq_some hlook, by simpa using hval ▸ hms⟩, rfl⟩

theorem fpTable0_freq (ms : Nat) (iss : List (List Nat)) (x : Nat)
    (h : containKey (fpTable0 ms iss) x = true) :
    tableFreq (fpTable0 ms iss) x = itemCount iss x := by
  obtain ⟨hd, hlook⟩ := Option.isSome_iff_exists.1 h
  have hmem := mem_of_alookup_eq_some hlook
  have := (fpTable0_entries ms iss (x, hd) hmem).2.2.1
  rw [tableFreq, hlook]
  simpa using this

/-! ### Anatomy of a successful build -/

theorem mem_filterAndSort {t : Table} {d : List Nat} {j : Nat}
    (h : j ∈ filterAndSortItemSet t d) : containKey t j = true ∧ j ∈ d := by
  rw [filterAndSortItemSet, mem_sortDesc] at h
  obtain ⟨hd, hc⟩ := List.mem_filter.1 h
  exact ⟨by simpa using hc, hd⟩

theorem filterAndSort_nodup {t : Table} {d : List Nat} (hnd : d.Nodup) :
    (filterAndSortItemSet t d).Nodup := by
  rw [filterAndSortItemSet]
  exact ((sortDesc_perm _ _).nodup_iff).2 (hnd.filter _)

theorem filterAndSort_sorted (t : Table) (d : List Nat) :
    SortedDesc (fun i => tableFreq t i) (filterAndSortItemSet t d) :=
  sortDesc_sorted _ _

theorem mem_fpSeqs {ms : Nat} {iss : List (List Nat)} {l : List Nat}
    (hl : l ∈ fpSeqs ms iss) :
    l.Nodup ∧ SortedDesc (fun i => tableFreq (fpTable0 ms iss) i) l ∧
    ∀ j ∈ l, containKey (fpTable0 ms iss) j = true := by
  rw [fpSeqs] at hl
  obtain ⟨d, hd, rfl⟩ := List.mem_map.1 hl
  exact ⟨filterAndSort_nodup (fpDedups_nodup iss d hd),
    filterAndSort_sorted _ _, fun j hj => (mem_filterAndSort hj).1⟩

theorem fpBuild_eq (ms : Nat) (iss : List (List Nat)) :
    fpBuild ms iss =
      (match buildTreeAll (Node.mk none 0 []) (fpTable0 ms iss)
          (fpSeqs ms iss) with
       | Except.ok st =>
         Except.ok (FpState.mk ms st.2 st.1 (buildCPB st.1 ms st.2))
       | Except.error e => Except.error e) := rfl

theorem ptrsOf_fpTable0 (ms : Nat) (iss : List (List Nat)) (x : Nat) :
    ptrsOf (fpTable0 ms iss) x = [] := by
  unfold ptrsOf
  cases hlook : alookup (fpTable0 ms iss) x with
  | none => rfl
  | some h =>
    have := (fpTable0_entries ms iss (x, h) (mem_of_alookup_eq_some hlook)).2.1
    exact this

theorem tableInv_base (ms : Nat) (iss : List (List Nat)) :
    TableInv (fpTable0 ms iss) (fpTable0 ms iss) (Node.mk none 0 []) := by
  constructor
  · rfl
  · intro x q
    rw [ptrsOf_fpTable0]
    constructor
    · intro hmem
      simp at hmem
    · rintro ⟨hne, hp, -⟩
      cases q with
      | nil => exact absurd rfl hne
      | cons j q' =>
        rw [hasPath_cons_none (show findChild [] j = none from rfl) none 0 q'] at hp
        exact absurd hp (by simp)
  · intro x
    rw [ptrsOf_fpTable0]
    simp

theorem fpBuild_ok_parts {ms : Nat} {iss : List (List Nat)} {st : FpState}
    (hb : fpBuild ms iss = Except.ok st) :
    buildTreeAll (Node.mk none 0 []) (fpTable0 ms iss) (fpSeqs ms iss) =
      Except.ok (st.tree, st.item_header_table) ∧
    st.min_support = ms ∧
    st.conditional_pattern_bases = buildCPB st.tree ms st.item_header_table := by
  rw [fpBuild_eq] at hb
  cases hok : buildTreeAll (Node.mk none 0 []) (fpTable0 ms iss)
      (fpSeqs ms iss) with
  | error e => rw [hok] at hb; exact absurd hb (by simp)
  | ok p =>
    rw [hok] at hb
    have hst : FpState.mk ms p.2 p.1 (buildCPB p.1 ms p.2) = st := by
      simpa using hb
    subst hst
    exact ⟨by rw [Prod.mk.eta], rfl, rfl⟩

theorem fpBuild_ok_inv {ms : Nat} {iss : List (List Nat)} {st : FpState}
    (hb : fpBuild ms iss = Except.ok st) :
    TreeInv st.tree (fpSeqs ms iss) ∧
    TableInv st.item_header_table (fpTable0 ms iss) st.tree := by
  obtain ⟨hok, -, -⟩ := fpBuild_ok_parts hb
  have hne := buildTreeAll_ok_nonempty _ _ _ _ hok
  obtain ⟨tree', t', hok2, hTree, hTab⟩ := buildTreeAll_inv (fpSeqs ms iss)
    (Node.mk none 0 []) (fpTable0 ms iss) (fpTable0 ms iss) [] hne
    (fun l hl j hj => (mem_fpSeqs hl).2.2 j hj)
    treeInv_root (tableInv_base ms iss)
  have hcomb := hok.symm.trans hok2
  simp only [Except.ok.injEq, Prod.mk.injEq] at hcomb
  obtain ⟨h1, h2⟩ := hcomb
  subst h1
  subst h2
  exact ⟨by simpa using hTree, hTab⟩

/-! ### Claim C9: header/tree consistency -/

theorem st_table_keysNodup {ms : Nat} {iss : List (List Nat)} {st : FpState}
    (hb : fpBuild ms iss = Except.ok st) :
    (st.item_header_table.map Prod.fst).Nodup := by
  obtain ⟨-, hTab⟩ := fpBuild_ok_inv hb
  rw [keys_of_shape hTab.shape]
  exact fpTable0_keysNodup ms iss

theorem st_table_item_eq_key {ms : Nat} {iss : List (List Nat)} {st : FpState}
    (hb : fpBuild ms iss = Except.ok st) :
    ∀ e ∈ st.item_header_table, e.2.item = e.1 := by
  obtain ⟨-, hTab⟩ := fpBuild_ok_inv hb
  intro e he
  have h1 : (e.1, e.2.item, e.2.frequency) ∈
      st.item_header_table.map (fun e => (e.1, e.2.item, e.2.frequency)) :=
    List.mem_map.2 ⟨e, he, rfl⟩
  rw [hTab.shape] at h1
  obtain ⟨e', he', heq⟩ := List.mem_map.1 h1
  have hitem := (fpTable0_entries ms iss e' he').1
  have h2 : e'.1 = e.1 := (Prod.mk.inj heq).1
  have h3 : e'.2.item = e.2.item := (Prod.mk.inj (Prod.mk.inj heq).2).1
  rw [← h3, hitem, h2]

theorem ptrsOf_entry {t : Table} (hnd : (t.map Prod.fst).Nodup) {k : Nat}
    {h : ItemHeader} (hmem : (k, h) ∈ t) : ptrsOf t k = h.pointers := by
  unfold ptrsOf
  rw [alookup_eq_some_of_mem hnd hmem]

theorem length_eq_count_of_all_eq {α : Type} [BEq α] [LawfulBEq α]
    {m : List α} {a : α} (h : ∀ b ∈ m, b = a) : m.length = m.count a := by
  induction m with
  | nil => rfl
  | cons b m ih =>
    rw [List.length_cons, List.count_cons]
    rw [h b (by simp)]
    simp [ih (fun b hb => h b (List.mem_cons_of_mem _ hb))]

theorem filter_length_one {α : Type} [BEq α] [LawfulBEq α] {p : α → Bool}
    {l : List α} {a : α} (ha : a ∈ l) (hpa : p a = true)
    (huniq : ∀ b ∈ l, p b = true → b = a) (hcount : l.count a ≤ 1) :
    (l.filter p).length = 1 := by
  have hmemf : a ∈ l.filter p := List.mem_filter.2 ⟨ha, hpa⟩
  have halleq : ∀ b ∈ l.filter p, b = a := by
    intro b hb
    obtain ⟨hb1, hb2⟩ := List.mem_filter.1 hb
    exact huniq b hb1 hb2
  have hlen := length_eq_count_of_all_eq halleq
  have hle : (l.filter p).count a ≤ l.count a :=
    (List.filter_sublist l).count_le a
  have hpos : 0 < (l.filter p).count a := countL_pos_iff_mem.2 hmemf
  omega

/-- C9: after a successful build, every tree node with a non-null item (every
non-empty existing path) appears in exactly one header's pointer set, that
header's item equals the node's item (the last item of its path), and the
root (the empty path, whose item is null) appears in no pointer set. -/
theorem claimC9 (ms : Nat) (iss : List (List Nat)) (st : FpState)
    (hb : fpBuild ms iss = Except.ok st) :
    (∀ q, q ≠ [] → hasPath st.tree q = true →
      ((st.item_header_table.filter
          (fun e => decide (q ∈ e.2.pointers))).length = 1 ∧
       ∀ e ∈ st.item_header_table, q ∈ e.2.pointers →
         some e.2.item = q.getLast?)) ∧
    (∀ e ∈ st.item_header_table, [] ∉ e.2.pointers) := by
  obtain ⟨-, hTab⟩ := fpBuild_ok_inv hb
  have hnd := st_table_keysNodup hb
  have hitem := st_table_item_eq_key hb
  have hties : ∀ e ∈ st.item_header_table, ∀ q ∈ e.2.pointers,
      q ≠ [] ∧ hasPath st.tree q = true ∧ q.getLast? = some e.1 := by
    intro e he q hq
    have hpe : ptrsOf st.item_header_table e.1 = e.2.pointers :=
      ptrsOf_entry hnd (by rw [Prod.mk.eta]; exact he)
    exact (hTab.ptr_mem e.1 q).1 (by rw [hpe]; exact hq)
  constructor
  · intro q hqne hqp
    obtain ⟨x, hx⟩ := exists_getLastQ hqne
    have hqmem : q ∈ ptrsOf st.item_header_table x :=
      (hTab.ptr_mem x q).2 ⟨hqne, hqp, hx⟩
    have hxlook : ∃ h, alookup st.item_header_table x = some h := by
      unfold ptrsOf at hqmem
      cases hlook : alookup st.item_header_table x with
      | none => rw [hlook] at hqmem; simp at hqmem
      | some h => exact ⟨h, rfl⟩
    obtain ⟨hx2, hlook⟩ := hxlook
    have hxin : (x, hx2) ∈ st.item_header_table := mem_of_alookup_eq_some hlook
    have hqptr : q ∈ hx2.pointers := by
      rw [ptrsOf_entry hnd hxin] at hqmem
      exact hqmem
    constructor
    · refine filter_length_one hxin (by simp [hqptr]) ?_ ?_
      · intro e he hpe
        rw [decide_eq_true_eq] at hpe
        have h3 := (hties e he q hpe).2.2
        have hkey : e.1 = x := by
          rw [h3] at hx
          exact Option.some_inj.1 hx
        have : alookup st.item_header_table e.1 = some e.2 :=
          alookup_eq_some_of_mem hnd (by rw [Prod.mk.eta]; exact he)
        rw [hkey, hlook] at this
        have := Option.some_inj.1 this
        calc e = (e.1, e.2) := (Prod.mk.eta).symm
          _ = (x, hx2) := by rw [hkey, this]
      · have := (nodupL_iff_count _).1 (List.Nodup.of_map _ hnd) (x, hx2)
        exact this
    · intro e he hq
      have := (hties e he q hq).2.2
      rw [this, hitem e he]
  · intro e he hmem
    exact absurd rfl (hties e he [] hmem).1

/-- Witness for C9 at the reference input. -/
theorem claimC9_witness :
    (∀ q, q ≠ [] → hasPath refState3.tree q = true →
      ((refState3.item_header_table.filter
          (fun e => decide (q ∈ e.2.pointers))).length = 1 ∧
       ∀ e ∈ refState3.item_header_table, q ∈ e.2.pointers →
         some e.2.item = q.getLast?)) ∧
    (∀ e ∈ refState3.item_header_table, [] ∉ e.2.pointers) :=
  claimC9 3 refItemSets refState3 rfl

/-! ### Claim C10: distinct elements, anchored item sets -/

theorem mem_dictSet {β : Type} {d : List (Nat × β)} {k : Nat} {v : β}
    {e : Nat × β} (h : e ∈ dictSet d k v) : e ∈ d ∨ e = (k, v) := by
  induction d with
  | nil => simp [dictSet] at h; exact Or.inr h
  | cons e' t ih =>
    obtain ⟨k', w⟩ := e'
    by_cases hk : k' = k
    · subst hk
      rw [dictSet, if_pos rfl] at h
      rcases List.mem_cons.1 h with rfl | h
      · exact Or.inr rfl
      · exact Or.inl (List.mem_cons_of_mem _ h)
    · rw [dictSet, if_neg hk] at h
      rcases List.mem_cons.1 h with rfl | h
      · exact Or.inl (by simp)
      · rcases ih h with h | h
        · exact Or.inl (List.mem_cons_of_mem _ h)
        · exact Or.inr h

theorem buildCPB_eq (tree : Node) (ms : Nat) (t : Table) :
    buildCPB tree ms t =
      (tableValues t).reverse.foldl
        (fun cpb h =>
          if (condBaseFor tree ms h).isEmpty then cpb
          else dictSet cpb h.item (condBaseFor tree ms h)) [] := rfl

theorem mem_cpbFold (tree : Node) (ms : Nat) :
    ∀ (vals : List ItemHeader) (cpb0 : List (Nat × List Nat)) (x : Nat)
      (B : List Nat),
    (x, B) ∈ vals.foldl
        (fun cpb h =>
          if (condBaseFor tree ms h).isEmpty then cpb
          else dictSet cpb h.item (condBaseFor tree ms h)) cpb0 →
    (x, B) ∈ cpb0 ∨
      ∃ hd ∈ vals, hd.item = x ∧ B = condBaseFor tree ms hd ∧ B ≠ [] := by
  intro vals
  induction vals with
  | nil => intro cpb0 x B h; exact Or.inl h
  | cons hd vals ih =>
    intro cpb0 x B h
    simp only [List.foldl_cons] at h
    rcases ih _ x B h with h2 | ⟨hd', hmem, h3, h4, h5⟩
    · by_cases he : (condBaseFor tree ms hd).isEmpty
      · rw [if_pos he] at h2
        exact Or.inl h2
      · rw [if_neg he] at h2
        rcases mem_dictSet h2 with h2 | h2
        · exact Or.inl h2
        · obtain ⟨hx, hB⟩ := Prod.mk.inj h2
          refine Or.inr ⟨hd, by simp, hx.symm, hB, ?_⟩
          rw [hB]
          intro hnil
          rw [hnil] at he
          exact he rfl
    · exact Or.inr ⟨hd', List.mem_cons_of_mem _ hmem, h3, h4, h5⟩

theorem mem_buildCPB {tree : Node} {ms : Nat} {tbl : Table} {x : Nat}
    {B : List Nat} (h : (x, B) ∈ buildCPB tree ms tbl) :
    ∃ hd ∈ tableValues tbl, hd.item = x ∧ B = condBaseFor tree ms hd ∧
      B ≠ [] := by
  rw [buildCPB_eq] at h
  rcases mem_cpbFold tree ms _ [] x B h with h | ⟨hd, hmem, h3, h4, h5⟩
  · simp at h
  · exact ⟨hd, List.mem_reverse.1 hmem, h3, h4, h5⟩

theorem keysNodup_condFold (tree : Node) :
    ∀ (ptrs : List (List Nat)) (d0 : List (Nat × Nat)),
    (d0.map Prod.fst).Nodup →
    ((ptrs.foldl (fun b q => bumpAll (freqAt tree q) q.dropLast.reverse b)
      d0).map Prod.fst).Nodup := by
  intro ptrs
  induction ptrs with
  | nil => intro d0 h; exact h
  | cons q ptrs ih =>
    intro d0 h
    exact ih _ (keys_nodup_bumpAll _ _ d0 h)

theorem condBaseRaw_keysNodup (tree : Node) (ptrs : List (List Nat)) :
    ((condBaseRaw tree ptrs).map Prod.fst).Nodup :=
  keysNodup_condFold tree ptrs [] (by simp)

theorem containKey_condFold (tree : Node) :
    ∀ (ptrs : List (List Nat)) (d0 : List (Nat × Nat)) (a : Nat),
    (containKey (ptrs.foldl
        (fun b q => bumpAll (freqAt tree q) q.dropLast.reverse b) d0) a = true ↔
      (containKey d0 a = true ∨ ∃ q ∈ ptrs, a ∈ q.dropLast)) := by
  intro ptrs
  induction ptrs with
  | nil => intro d0 a; simp
  | cons q ptrs ih =>
    intro d0 a
    simp only [List.foldl_cons]
    rw [ih]
    rw [show containKey (bumpAll (freqAt tree q) q.dropLast.reverse d0) a =
      (containKey d0 a || decide (a ∈ q.dropLast.reverse)) from
      containKey_bumpAll _ _ d0 a]
    simp only [Bool.or_eq_true, decide_eq_true_eq, List.mem_reverse,
      List.mem_cons]
    constructor
    · rintro ((h | h) | ⟨q', hq', ha⟩)
      · exact Or.inl h
      · exact Or.inr ⟨q, Or.inl rfl, h⟩
      · exact Or.inr ⟨q', Or.inr hq', ha⟩
    · rintro (h | ⟨q', (rfl | hq'), ha⟩)
      · exact Or.inl (Or.inl h)
      · exact Or.inl (Or.inr ha)
      · exact Or.inr ⟨q', hq', ha⟩

theorem cpb_entry_facts {ms : Nat} {iss : List (List Nat)} {st : FpState}
    (hb : fpBuild ms iss = Except.ok st) :
    ∀ x B, (x, B) ∈ st.conditional_pattern_bases → B.Nodup ∧ x ∉ B := by
  obtain ⟨-, -, hcpb⟩ := fpBuild_ok_parts hb
  obtain ⟨hTree, hTab⟩ := fpBuild_ok_inv hb
  have hnd := st_table_keysNodup hb
  have hitem := st_table_item_eq_key hb
  intro x B hmem
  rw [hcpb] at hmem
  obtain ⟨hd, hdval, hdx, hBeq, -⟩ := mem_buildCPB hmem
  constructor
  · rw [hBeq, condBaseFor]
    exact List.Nodup.sublist ((List.filter_sublist _).map _)
      (condBaseRaw_keysNodup st.tree hd.pointers)
  · intro hxB
    rw [hBeq, condBaseFor] at hxB
    have hck : containKey (condBaseRaw st.tree hd.pointers) x = true := by
      rw [containKey_iff_mem]
      obtain ⟨kv, hkv, hfst⟩ := List.mem_map.1 hxB
      exact List.mem_map.2 ⟨kv, (List.mem_filter.1 hkv).1, hfst⟩
    obtain ⟨q, hq, hxq⟩ := (containKey_condFold st.tree hd.pointers [] x).1 hck
      |>.resolve_left (by simp [containKey, alookup])
    obtain ⟨e, he, he2⟩ := List.mem_map.1 hdval
    have hkey : e.1 = x := by rw [← hitem e he, he2, hdx]
    have hptr : ptrsOf st.item_header_table x = hd.pointers := by
      rw [← hkey, ptrsOf_entry hnd (by rw [Prod.mk.eta]; exact he), he2]
    have hqfacts := (hTab.ptr_mem x q).1 (by rw [hptr]; exact hq)
    obtain ⟨hqne, hqpath, hqlast⟩ := hqfacts
    obtain ⟨l, hl, hiseg⟩ := (hTree.path_iff q hqne).1 hqpath
    have hlnodup := (mem_fpSeqs hl).1
    have hqnodup : q.Nodup :=
      List.Nodup.sublist (sublist_of_isegB hiseg) hlnodup
    obtain ⟨a, ha⟩ := getLastQ_decomp hqlast
    rw [ha] at hqnodup hxq
    rw [List.dropLast_concat] at hxq
    rw [List.nodup_append] at hqnodup
    exact hqnodup.2.2 hxq (by simp)

/-- C10: every item set returned by the enumeration after a successful build
has pairwise-distinct elements and begins with its anchor item, the
conditional-pattern-base key it was emitted for; the remaining elements form a
combination drawn from that base, and the anchor never occurs in its own
conditional pattern base. -/
theorem claimC10 (ms : Nat) (iss : List (List Nat)) (mic : Nat) (st : FpState)
    (hb : fpBuild ms iss = Except.ok st) :
    ∀ l ∈ findFrequencyItemSets st mic, l.Nodup ∧
      ∃ x B c, (x, B) ∈ st.conditional_pattern_bases ∧ l = x :: c ∧
        c.Sublist B ∧ x ∉ B := by
  intro l hl
  rw [findFrequencyItemSets_eq_catMap] at hl
  obtain ⟨kv, hkv, hl⟩ := (mem_catMap _ _ l).1 hl
  rw [findFrequentItemSetsFor_eq_catMap] at hl
  obtain ⟨i, -, hl⟩ := (mem_catMap _ _ l).1 hl
  obtain ⟨c, hc, rfl⟩ := List.mem_map.1 hl
  have hcomb := (List.mem_filter.1 hc).1
  have hsub := sublist_of_mem_combinations hcomb
  obtain ⟨hBnd, hxB⟩ := cpb_entry_facts hb kv.1 kv.2
    (by rw [Prod.mk.eta]; exact hkv)
  constructor
  · rw [List.nodup_cons]
    exact ⟨fun hmem => hxB (hsub.mem hmem), List.Nodup.sublist hsub hBnd⟩
  · exact ⟨kv.1, kv.2, c, by rw [Prod.mk.eta]; exact hkv, rfl, hsub, hxB⟩

/-- Witness for C10 at the reference input with `min_item_count = 2`. -/
theorem claimC10_witness :
    [1, 2].Nodup ∧
      ∃ x B c, (x, B) ∈ refState3.conditional_pattern_bases ∧
        [1, 2] = x :: c ∧ c.Sublist B ∧ x ∉ B :=
  claimC10 3 refItemSets 2 refState3 rfl [1, 2] (by decide)

/-! ### Claim C2: conditional-pattern-base refinement -/

theorem isEmpty_map {α β : Type} (f : α → β) (l : List α) :
    (l.map f).isEmpty = l.isEmpty := by
  cases l <;> rfl

theorem specBaseEntry_eq_condBaseFor (tree : Node) (ms : Nat)
    (h : ItemHeader) :
    specBaseEntry tree ms h.pointers =
      if (condBaseFor tree ms h).isEmpty then none
      else some (condBaseFor tree ms h) := by
  show (if ((condBaseRaw tree h.pointers).filter
        (fun kv => ms ≤ kv.2)).isEmpty then none
      else some (((condBaseRaw tree h.pointers).filter
        (fun kv => ms ≤ kv.2)).map (fun kv => kv.1))) = _
  simp only [condBaseFor, isEmpty_map]

theorem alookup_cpbFold_absent (tree : Node) (ms : Nat) :
    ∀ (vals : List ItemHeader) (acc : List (Nat × List Nat)) (x : Nat),
    (∀ h ∈ vals, h.item ≠ x) →
    alookup (vals.foldl
      (fun cpb h =>
        if (condBaseFor tree ms h).isEmpty then cpb
        else dictSet cpb h.item (condBaseFor tree ms h)) acc) x =
      alookup acc x := by
  intro vals
  induction vals with
  | nil => intro acc x h; rfl
  | cons h0 vals ih =>
    intro acc x hne
    simp only [List.foldl_cons]
    rw [ih _ x (fun h hm => hne h (List.mem_cons_of_mem _ hm))]
    by_cases he : (condBaseFor tree ms h0).isEmpty
    · rw [if_pos he]
    · rw [if_neg he, alookup_dictSet_ne _ _ _ _ (hne h0 (by simp))]

theorem alookup_cpbFold (tree : Node) (ms : Nat) :
    ∀ (vals : List ItemHeader) (cpb0 : List (Nat × List Nat))
      (hd : ItemHeader),
    hd ∈ vals →
    ((vals.map (fun h => h.item)).Nodup) →
    (∀ h ∈ vals, containKey cpb0 h.item = false) →
    alookup (vals.foldl
      (fun cpb h =>
        if (condBaseFor tree ms h).isEmpty then cpb
        else dictSet cpb h.item (condBaseFor tree ms h)) cpb0) hd.item =
      if (condBaseFor tree ms hd).isEmpty then none
      else some (condBaseFor tree ms hd) := by
  intro vals
  induction vals with
  | nil => intro cpb0 hd h; exact absurd h (List.not_mem_nil _)
  | cons h0 vals ih =>
    intro cpb0 hd hmem hnd hck
    simp only [List.map_cons, List.nodup_cons] at hnd
    obtain ⟨hnotin, hndtail⟩ := hnd
    simp only [List.foldl_cons]
    rcases List.mem_cons.1 hmem with rfl | hmem
    · have habs : ∀ h ∈ vals, h.item ≠ hd.item := by
        intro h hm heq
        exact hnotin (List.mem_map.2 ⟨h, hm, heq⟩)
      rw [alookup_cpbFold_absent tree ms vals _ hd.item habs]
      by_cases he : (condBaseFor tree ms hd).isEmpty
      · rw [if_pos he, if_pos he]
        have hck0 := hck hd (by simp)
        cases hcase : alookup cpb0 hd.item with
        | none => rfl
        | some v => rw [containKey, hcase] at hck0; simp at hck0
      · rw [if_neg he, if_neg he, alookup_dictSet_self]
    · have hstep : ∀ h ∈ vals,
          containKey (if (condBaseFor tree ms h0).isEmpty then cpb0
            else dictSet cpb0 h0.item (condBaseFor tree ms h0)) h.item =
            false := by
        intro h hm
        have hne : h0.item ≠ h.item := fun heq =>
          hnotin (List.mem_map.2 ⟨h, hm, heq.symm⟩)
        by_cases he : (condBaseFor tree ms h0).isEmpty
        · rw [if_pos he]; exact hck h (List.mem_cons_of_mem _ hm)
        · rw [if_neg he, containKey, alookup_dictSet_ne _ _ _ _ hne]
          exact hck h (List.mem_cons_of_mem _ hm)
      exact ih _ hd hmem hndtail hstep

theorem st_table_itemsNodup {ms : Nat} {iss : List (List Nat)} {st : FpState}
    (hb : fpBuild ms iss = Except.ok st) :
    ((tableValues st.item_header_table).map (fun h => h.item)).Nodup := by
  have h1 : (tableValues st.item_header_table).map (fun h => h.item) =
      st.item_header_table.map Prod.fst := by
    rw [tableValues, List.map_map]
    exact List.map_congr_left (fun e he => st_table_item_eq_key hb e he)
  rw [h1]
  exact st_table_keysNodup hb

/-- C2: after a successful build, the stored conditional-pattern-base mapping
agrees with the spec-side description: for every item header, looking up the
header's item yields exactly the spec-computed entry (ancestor walks from each
pointer weighted by the originating node's frequency, accumulator entries below
`min_support` dropped, `none` when nothing survives), and items absent from the
header table are absent from the mapping. -/
theorem claimC2 (ms : Nat) (iss : List (List Nat)) (st : FpState)
    (hb : fpBuild ms iss = Except.ok st) :
    (∀ x h, (x, h) ∈ st.item_header_table →
      alookup st.conditional_pattern_bases x =
        specBaseEntry st.tree ms h.pointers) ∧
    (∀ x, containKey st.item_header_table x = false →
      alookup st.conditional_pattern_bases x = none) := by
  obtain ⟨-, -, hcpb⟩ := fpBuild_ok_parts hb
  have hitems := st_table_itemsNodup hb
  have hkey := st_table_item_eq_key hb
  have hnd : (((tableValues st.item_header_table).reverse).map
      (fun h => h.item)).Nodup := by
    rw [List.map_reverse]
    exact List.nodup_reverse.2 hitems
  constructor
  · intro x h hmem
    have hx : h.item = x := hkey (x, h) hmem
    have hm : h ∈ (tableValues st.item_header_table).reverse :=
      List.mem_reverse.2 (List.mem_map.2 ⟨(x, h), hmem, rfl⟩)
    rw [hcpb, buildCPB_eq, ← hx,
      alookup_cpbFold st.tree ms _ [] h hm hnd (fun _ _ => rfl),
      specBaseEntry_eq_condBaseFor]
  · intro x hck
    have habs : ∀ h ∈ (tableValues st.item_header_table).reverse,
        h.item ≠ x := by
      intro h hm heq
      obtain ⟨e, he, he2⟩ := List.mem_map.1 (List.mem_reverse.1 hm)
      have : containKey st.item_header_table x = true := by
        rw [containKey_iff_mem]
        exact List.mem_map.2 ⟨e, he, by rw [← heq, ← he2, hkey e he]⟩
      rw [this] at hck
      exact Bool.noConfusion hck
    rw [hcpb, buildCPB_eq, alookup_cpbFold_absent st.tree ms _ [] x habs]
    rfl

/-- Witness for C2 at the reference input. -/
theorem claimC2_witness :
    (∀ x h, (x, h) ∈ refState3.item_header_table →
      alookup refState3.conditional_pattern_bases x =
        specBaseEntry refState3.tree 3 h.pointers) ∧
    (∀ x, containKey refState3.item_header_table x = false →
      alookup refState3.conditional_pattern_bases x = none) :=
  claimC2 3 refItemSets refState3 rfl

/-! ### Claim C8: monotonicity in min_support -/

theorem boolEq_of_iff {a b : Bool} (h : a = true ↔ b = true) : a = b := by
  cases a <;> cases b <;> simp_all

theorem countP_congrL {α : Type} (p q : α → Bool) :
    ∀ l : List α, (∀ a ∈ l, p a = q a) → l.countP p = l.countP q := by
  intro l
  induction l with
  | nil => intro h; rfl
  | cons a l ih =>
    intro h
    rw [List.countP_cons, List.countP_cons, h a (by simp),
      ih (fun b hb => h b (List.mem_cons_of_mem _ hb))]

theorem lenFilter_le_of_imp {α : Type} (p q : α → Bool) :
    ∀ l : List α, (∀ a ∈ l, p a = true → q a = true) →
      (l.filter p).length ≤ (l.filter q).length := by
  intro l
  induction l with
  | nil => intro h; exact Nat.le_refl 0
  | cons a l ih =>
    intro h
    have ih' := ih (fun b hb => h b (List.mem_cons_of_mem _ hb))
    by_cases hpa : p a = true
    · have hqa := h a (by simp) hpa
      rw [List.filter_cons, List.filter_cons, if_pos hpa, if_pos hqa]
      simpa using ih'
    · rw [List.filter_cons, if_neg hpa]
      by_cases hqa : q a = true
      · rw [List.filter_cons, if_pos hqa]
        exact le_trans ih' (by rw [List.length_cons]; exact Nat.le_succ _)
      · rw [List.filter_cons, if_neg hqa]
        exact ih'

theorem tableFreq_of_not_contains {t : Table} {b : Nat}
    (h : ¬ containKey t b = true) : tableFreq t b = 0 := by
  rw [tableFreq]
  cases hl : alookup t b with
  | none => rfl
  | some hh => exact absurd (by rw [containKey, hl]; rfl) h

theorem containKey_fpTable0_mono {s1 s2 : Nat} (sets : List (List Nat))
    (h12 : s1 ≤ s2) {a : Nat}
    (h : containKey (fpTable0 s2 sets) a = true) :
    containKey (fpTable0 s1 sets) a = true := by
  obtain ⟨h1, h2⟩ := (fpTable0_contains s2 sets a).1 h
  exact (fpTable0_contains s1 sets a).2 ⟨h1, le_trans h12 h2⟩

theorem upClosed_fpTable0 {s1 s2 : Nat} (sets : List (List Nat))
    (h12 : s1 ≤ s2) :
    UpClosed (fun i => tableFreq (fpTable0 s1 sets) i)
      (fun i => containKey (fpTable0 s2 sets) i) := by
  intro a b hab hpa
  have hab' : tableFreq (fpTable0 s1 sets) a ≤
      tableFreq (fpTable0 s1 sets) b := hab
  have hpa' : containKey (fpTable0 s2 sets) a = true := hpa
  show containKey (fpTable0 s2 sets) b = true
  obtain ⟨hpos, hs2⟩ := (fpTable0_contains s2 sets a).1 hpa'
  have ha1 : containKey (fpTable0 s1 sets) a = true :=
    (fpTable0_contains s1 sets a).2 ⟨hpos, le_trans h12 hs2⟩
  have hfa : tableFreq (fpTable0 s1 sets) a = itemCount sets a :=
    fpTable0_freq s1 sets a ha1
  by_cases hb1 : containKey (fpTable0 s1 sets) b = true
  · have hfb : tableFreq (fpTable0 s1 sets) b = itemCount sets b :=
      fpTable0_freq s1 sets b hb1
    rw [hfa, hfb] at hab'
    exact (fpTable0_contains s2 sets b).2
      ⟨lt_of_lt_of_le hpos hab', le_trans hs2 hab'⟩
  · exfalso
    rw [hfa, tableFreq_of_not_contains hb1] at hab'
    omega

theorem fpSeq_filter {s1 s2 : Nat} (sets : List (List Nat)) (h12 : s1 ≤ s2)
    (d : List Nat) :
    filterAndSortItemSet (fpTable0 s2 sets) d =
      (filterAndSortItemSet (fpTable0 s1 sets) d).filter
        (fun i => containKey (fpTable0 s2 sets) i) := by
  have hf : d.filter (fun i => containKey (fpTable0 s2 sets) i) =
      (d.filter (fun i => containKey (fpTable0 s1 sets) i)).filter
        (fun i => containKey (fpTable0 s2 sets) i) := by
    induction d with
    | nil => rfl
    | cons a d ih =>
      by_cases h2 : containKey (fpTable0 s2 sets) a = true
      · have h1 := containKey_fpTable0_mono sets h12 h2
        simp [List.filter_cons, h1, h2, ih]
      · have h2' : containKey (fpTable0 s2 sets) a = false := by
          cases hc : containKey (fpTable0 s2 sets) a
          · rfl
          · exact absurd hc h2
        by_cases h1 : containKey (fpTable0 s1 sets) a = true
        · simp [List.filter_cons, h1, h2', ih]
        · have h1' : containKey (fpTable0 s1 sets) a = false := by
            cases hc : containKey (fpTable0 s1 sets) a
            · rfl
            · exact absurd hc h1
          simp [List.filter_cons, h1', h2', ih]
  have hcong : ∀ b ∈ (d.filter (fun i => containKey (fpTable0 s1 sets) i)).filter
      (fun i => containKey (fpTable0 s2 sets) i),
      tableFreq (fpTable0 s2 sets) b = tableFreq (fpTable0 s1 sets) b := by
    intro b hbmem
    have hb2 : containKey (fpTable0 s2 sets) b = true := by
      simpa using (List.mem_filter.1 hbmem).2
    have hb1 : containKey (fpTable0 s1 sets) b = true :=
      containKey_fpTable0_mono sets h12 hb2
    rw [fpTable0_freq s2 sets b hb2, fpTable0_freq s1 sets b hb1]
  rw [filterAndSortItemSet, filterAndSortItemSet, hf,
    sortDesc_congr (fun i => tableFreq (fpTable0 s2 sets) i)
      (fun i => tableFreq (fpTable0 s1 sets) i) _ hcong,
    sortDesc_filter _ _ (upClosed_fpTable0 sets h12)]

theorem fpSeq_decomp {s1 s2 : Nat} (sets : List (List Nat)) (h12 : s1 ≤ s2)
    (d : List Nat) :
    ∃ rest, filterAndSortItemSet (fpTable0 s1 sets) d =
      filterAndSortItemSet (fpTable0 s2 sets) d ++ rest ∧
      ∀ c ∈ rest, containKey (fpTable0 s2 sets) c = false := by
  obtain ⟨rest, hdec, hall⟩ := sorted_filter_decomp
    (fun i => tableFreq (fpTable0 s1 sets) i)
    (fun i => containKey (fpTable0 s2 sets) i)
    (filterAndSortItemSet (fpTable0 s1 sets) d)
    (filterAndSort_sorted _ _) (upClosed_fpTable0 sets h12)
  exact ⟨rest, by rw [fpSeq_filter sets h12 d]; exact hdec, hall⟩

theorem isegB_fpSeq_up {s1 s2 : Nat} (sets : List (List Nat)) (h12 : s1 ≤ s2)
    (d q : List Nat)
    (h : isegB q (filterAndSortItemSet (fpTable0 s2 sets) d) = true) :
    isegB q (filterAndSortItemSet (fpTable0 s1 sets) d) = true := by
  obtain ⟨rest, hdec, -⟩ := fpSeq_decomp sets h12 d
  refine isegB_trans h ?_
  rw [isegB_iff]
  exact ⟨rest, hdec.symm⟩

theorem isegB_fpSeq_down {s1 s2 : Nat} (sets : List (List Nat))
    (h12 : s1 ≤ s2) {d q : List Nat} {x : Nat} (hlast : q.getLast? = some x)
    (hx : containKey (fpTable0 s2 sets) x = true)
    (h : isegB q (filterAndSortItemSet (fpTable0 s1 sets) d) = true) :
    isegB q (filterAndSortItemSet (fpTable0 s2 sets) d) = true := by
  obtain ⟨rest, hdec, hrest⟩ := fpSeq_decomp sets h12 d
  have hsort : SortedDesc (fun i => tableFreq (fpTable0 s1 sets) i) q :=
    List.Pairwise.sublist (sublist_of_isegB h)
      (filterAndSort_sorted (fpTable0 s1 sets) d)
  obtain ⟨a, ha⟩ := getLastQ_decomp hlast
  have hallp2 : ∀ y ∈ q, containKey (fpTable0 s2 sets) y = true := by
    intro y hy
    rw [ha] at hy hsort
    rcases List.mem_append.1 hy with hya | hyx
    · have hpair := (List.pairwise_append.1 hsort).2.2 y hya x (by simp)
      exact upClosed_fpTable0 sets h12 x y hpair hx
    · have hyx' : y = x := by simpa using hyx
      rw [hyx']
      exact hx
  have hq1 : q <+: filterAndSortItemSet (fpTable0 s1 sets) d := by
    obtain ⟨t, ht⟩ := (isegB_iff _ _).1 h
    exact ⟨t, ht⟩
  have hs2p : filterAndSortItemSet (fpTable0 s2 sets) d <+:
      filterAndSortItemSet (fpTable0 s1 sets) d := ⟨rest, hdec.symm⟩
  rcases List.prefix_or_prefix_of_prefix hq1 hs2p with hqs | hsq
  · obtain ⟨u, hu⟩ := hqs
    rw [isegB_iff]
    exact ⟨u, hu⟩
  · obtain ⟨u, hu⟩ := hsq
    cases u with
    | nil =>
      rw [isegB_iff]
      rw [List.append_nil] at hu
      exact ⟨[], by rw [List.append_nil]; exact hu.symm⟩
    | cons y u' =>
      exfalso
      have hyq : y ∈ q := by rw [← hu]; simp
      have hyp2 := hallp2 y hyq
      obtain ⟨t, ht⟩ := (isegB_iff _ _).1 h
      rw [← hu, hdec, List.append_assoc] at ht
      have hcan := List.append_cancel_left ht
      have hyrest : y ∈ rest := by rw [← hcan]; simp
      rw [hrest y hyrest] at hyp2
      exact Bool.noConfusion hyp2

theorem hasPath_fpBuild_up {s1 s2 : Nat} {sets : List (List Nat)}
    {st1 st2 : FpState} (h12 : s1 ≤ s2)
    (hb1 : fpBuild s1 sets = Except.ok st1)
    (hb2 : fpBuild s2 sets = Except.ok st2)
    {q : List Nat} (hq : q ≠ []) (h : hasPath st2.tree q = true) :
    hasPath st1.tree q = true := by
  have hT1 := (fpBuild_ok_inv hb1).1
  have hT2 := (fpBuild_ok_inv hb2).1
  obtain ⟨l, hl, hiseg⟩ := (hT2.path_iff q hq).1 h
  rw [fpSeqs] at hl
  obtain ⟨d, hd, rfl⟩ := List.mem_map.1 hl
  exact (hT1.path_iff q hq).2 ⟨filterAndSortItemSet (fpTable0 s1 sets) d,
    by rw [fpSeqs]; exact List.mem_map.2 ⟨d, hd, rfl⟩,
    isegB_fpSeq_up sets h12 d q hiseg⟩

theorem hasPath_fpBuild_down {s1 s2 : Nat} {sets : List (List Nat)}
    {st1 st2 : FpState} (h12 : s1 ≤ s2)
    (hb1 : fpBuild s1 sets = Except.ok st1)
    (hb2 : fpBuild s2 sets = Except.ok st2)
    {q : List Nat} {x : Nat} (hq : q ≠ []) (hlast : q.getLast? = some x)
    (hx : containKey (fpTable0 s2 sets) x = true)
    (h : hasPath st1.tree q = true) : hasPath st2.tree q = true := by
  have hT1 := (fpBuild_ok_inv hb1).1
  have hT2 := (fpBuild_ok_inv hb2).1
  obtain ⟨l, hl, hiseg⟩ := (hT1.path_iff q hq).1 h
  rw [fpSeqs] at hl
  obtain ⟨d, hd, rfl⟩ := List.mem_map.1 hl
  exact (hT2.path_iff q hq).2 ⟨filterAndSortItemSet (fpTable0 s2 sets) d,
    by rw [fpSeqs]; exact List.mem_map.2 ⟨d, hd, rfl⟩,
    isegB_fpSeq_down sets h12 hlast hx hiseg⟩

theorem freqAt_fpBuild_eq {s1 s2 : Nat} {sets : List (List Nat)}
    {st1 st2 : FpState} (h12 : s1 ≤ s2)
    (hb1 : fpBuild s1 sets = Except.ok st1)
    (hb2 : fpBuild s2 sets = Except.ok st2)
    {q : List Nat} {x : Nat} (hq : q ≠ []) (hlast : q.getLast? = some x)
    (hx : containKey (fpTable0 s2 sets) x = true) :
    freqAt st2.tree q = freqAt st1.tree q := by
  have hT1 := (fpBuild_ok_inv hb1).1
  have hT2 := (fpBuild_ok_inv hb2).1
  rw [hT2.freq_eq q hq, hT1.freq_eq q hq, fpSeqs, fpSeqs,
    List.countP_map, List.countP_map]
  apply countP_congrL
  intro d hd
  show isegB q (filterAndSortItemSet (fpTable0 s2 sets) d) =
    isegB q (filterAndSortItemSet (fpTable0 s1 sets) d)
  apply boolEq_of_iff
  constructor
  · exact fun h => isegB_fpSeq_up sets h12 d q h
  · exact fun h => isegB_fpSeq_down sets h12 hlast hx h

theorem alookup_cpb_entry {ms : Nat} {iss : List (List Nat)} {st : FpState}
    (hb : fpBuild ms iss = Except.ok st) {x : Nat} {h : ItemHeader}
    (hmem : (x, h) ∈ st.item_header_table) :
    alookup st.conditional_pattern_bases x =
      if (condBaseFor st.tree ms h).isEmpty then none
      else some (condBaseFor st.tree ms h) := by
  obtain ⟨-, -, hcpb⟩ := fpBuild_ok_parts hb
  have hnd : (((tableValues st.item_header_table).reverse).map
      (fun h => h.item)).Nodup := by
    rw [List.map_reverse]
    exact List.nodup_reverse.2 (st_table_itemsNodup hb)
  have hx : h.item = x := st_table_item_eq_key hb (x, h) hmem
  have hm : h ∈ (tableValues st.item_header_table).reverse :=
    List.mem_reverse.2 (List.mem_map.2 ⟨(x, h), hmem, rfl⟩)
  rw [hcpb, buildCPB_eq, ← hx,
    alookup_cpbFold st.tree ms _ [] h hm hnd (fun _ _ => rfl)]

theorem alookup_cpb_none {ms : Nat} {iss : List (List Nat)} {st : FpState}
    (hb : fpBuild ms iss = Except.ok st) {x : Nat}
    (hck : containKey st.item_header_table x = false) :
    alookup st.conditional_pattern_bases x = none := by
  obtain ⟨-, -, hcpb⟩ := fpBuild_ok_parts hb
  have hkey := st_table_item_eq_key hb
  have habs : ∀ h ∈ (tableValues st.item_header_table).reverse,
      h.item ≠ x := by
    intro h hm heq
    obtain ⟨e, he, he2⟩ := List.mem_map.1 (List.mem_reverse.1 hm)
    have hin : containKey st.item_header_table x = true := by
      rw [containKey_iff_mem]
      exact List.mem_map.2 ⟨e, he, by rw [← heq, ← he2, hkey e he]⟩
    rw [hin] at hck
    exact Bool.noConfusion hck
  rw [hcpb, buildCPB_eq, alookup_cpbFold_absent st.tree ms _ [] x habs]
  rfl

theorem cpbSize_entry {ms : Nat} {iss : List (List Nat)} {st : FpState}
    (hb : fpBuild ms iss = Except.ok st) {x : Nat} {h : ItemHeader}
    (hmem : (x, h) ∈ st.item_header_table) :
    cpbSize st x = (condBaseFor st.tree ms h).length := by
  rw [cpbSize, alookup_cpb_entry hb hmem]
  by_cases he : (condBaseFor st.tree ms h).isEmpty
  · rw [if_pos he]
    have hnil : condBaseFor st.tree ms h = [] := by
      cases hc : condBaseFor st.tree ms h with
      | nil => rfl
      | cons a l => rw [hc] at he; simp at he
    rw [hnil]
    rfl
  · rw [if_neg he]

theorem cpbSize_absent {ms : Nat} {iss : List (List Nat)} {st : FpState}
    (hb : fpBuild ms iss = Except.ok st) {x : Nat}
    (hck : containKey st.item_header_table x = false) : cpbSize st x = 0 := by
  rw [cpbSize, alookup_cpb_none hb hck]

theorem lookupD_condFold (tree : Node) :
    ∀ (ptrs : List (List Nat)) (d0 : List (Nat × Nat)) (a : Nat),
    lookupD (ptrs.foldl
        (fun b q => bumpAll (freqAt tree q) q.dropLast.reverse b) d0) a =
      lookupD d0 a +
        (ptrs.map (fun q => freqAt tree q * q.dropLast.count a)).sum := by
  intro ptrs
  induction ptrs with
  | nil => intro d0 a; simp
  | cons q ptrs ih =>
    intro d0 a
    simp only [List.foldl_cons]
    rw [ih, lookupD_bumpAll, List.count_reverse]
    simp only [List.map_cons, List.sum_cons]
    omega

theorem lookupD_condRaw (tree : Node) (ptrs : List (List Nat)) (a : Nat) :
    lookupD (condBaseRaw tree ptrs) a =
      (ptrs.map (fun q => freqAt tree q * q.dropLast.count a)).sum := by
  rw [condBaseRaw, lookupD_condFold tree ptrs [] a]
  simp [lookupD, alookup]

theorem condBaseFor_le (tree1 tree2 : Node) (s1 s2 : Nat)
    (h1 h2 : ItemHeader) (h12 : s1 ≤ s2)
    (hmem : ∀ q, q ∈ h2.pointers ↔ q ∈ h1.pointers)
    (hnd1 : h1.pointers.Nodup) (hnd2 : h2.pointers.Nodup)
    (hfr : ∀ q ∈ h1.pointers, freqAt tree2 q = freqAt tree1 q) :
    (condBaseFor tree2 s2 h2).length ≤ (condBaseFor tree1 s1 h1).length := by
  have hperm : List.Perm h2.pointers h1.pointers :=
    perm_of_nodup_mem_iff hnd2 hnd1 hmem
  have hlook : ∀ a, lookupD (condBaseRaw tree2 h2.pointers) a =
      lookupD (condBaseRaw tree1 h1.pointers) a := by
    intro a
    rw [lookupD_condRaw, lookupD_condRaw,
      (hperm.map (fun q => freqAt tree2 q * q.dropLast.count a)).sum_eq]
    exact congrArg List.sum
      (List.map_congr_left (fun q hq => by rw [hfr q hq]))
  have hck : ∀ a, containKey (condBaseRaw tree2 h2.pointers) a = true ↔
      containKey (condBaseRaw tree1 h1.pointers) a = true := by
    intro a
    refine Iff.trans (containKey_condFold tree2 h2.pointers [] a)
      (Iff.trans ?_ (containKey_condFold tree1 h1.pointers [] a).symm)
    apply or_congr Iff.rfl
    exact ⟨fun hh => ⟨hh.choose, (hmem hh.choose).1 hh.choose_spec.1,
        hh.choose_spec.2⟩,
      fun hh => ⟨hh.choose, (hmem hh.choose).2 hh.choose_spec.1,
        hh.choose_spec.2⟩⟩
  rw [condBaseFor, condBaseFor]
  apply length_le_of_nodup_subset
  · exact List.Nodup.sublist ((List.filter_sublist _).map _)
      (condBaseRaw_keysNodup tree2 h2.pointers)
  · intro a ha
    obtain ⟨kv, hkv, hfst⟩ := List.mem_map.1 ha
    obtain ⟨hraw2, hge2⟩ := List.mem_filter.1 hkv
    have hl2 : alookup (condBaseRaw tree2 h2.pointers) kv.1 = some kv.2 :=
      alookup_eq_some_of_mem (condBaseRaw_keysNodup tree2 h2.pointers)
        (by rw [Prod.mk.eta]; exact hraw2)
    have hd2 : lookupD (condBaseRaw tree2 h2.pointers) kv.1 = kv.2 := by
      rw [lookupD, hl2]
      rfl
    have hck1 : containKey (condBaseRaw tree1 h1.pointers) kv.1 = true :=
      (hck kv.1).1 (by rw [containKey, hl2]; rfl)
    rw [containKey] at hck1
    obtain ⟨v, hv⟩ := Option.isSome_iff_exists.1 hck1
    have hveq : v = kv.2 := by
      have h3 := hlook kv.1
      rw [hd2, lookupD, hv, Option.getD_some] at h3
      exact h3.symm
    refine List.mem_map.2 ⟨(kv.1, v),
      List.mem_filter.2 ⟨mem_of_alookup_eq_some hv, ?_⟩, hfst⟩
    rw [hveq]
    have hs2' : s2 ≤ kv.2 := by simpa using hge2
    simpa using le_trans h12 hs2'

/-- C8: for a fixed input collection, raising `min_support` is monotone: with
`s1 ≤ s2` and both builds succeeding, the `s2` build never has a longer header
table, a tree with more nodes, or a larger conditional pattern base for any
item than the `s1` build. -/
theorem claimC8 (sets : List (List Nat)) (s1 s2 : Nat) (st1 st2 : FpState)
    (h12 : s1 ≤ s2)
    (hb1 : fpBuild s1 sets = Except.ok st1)
    (hb2 : fpBuild s2 sets = Except.ok st2) :
    st2.item_header_table.length ≤ st1.item_header_table.length ∧
    countNodes st2.tree ≤ countNodes st1.tree ∧
    ∀ x, cpbSize st2 x ≤ cpbSize st1 x := by
  have hT1 := (fpBuild_ok_inv hb1).1
  have hT2 := (fpBuild_ok_inv hb2).1
  have hTab1 := (fpBuild_ok_inv hb1).2
  have hTab2 := (fpBuild_ok_inv hb2).2
  refine ⟨?_, ?_, ?_⟩
  · have hlenEq : ∀ s : Nat, ∀ st : FpState, fpBuild s sets = Except.ok st →
        st.item_header_table.length =
          (((fpDedups sets).foldl (fun d l => bumpAll 1 l d) []).filter
            (fun kv => s ≤ kv.2)).length := by
      intro s st hb
      have hsh := (fpBuild_ok_inv hb).2.shape
      have hlen := congrArg List.length hsh
      rw [List.length_map, List.length_map] at hlen
      rw [hlen, fpTable0_eq, List.length_map, (sortDesc_perm _ _).length_eq]
    rw [hlenEq s2 st2 hb2, hlenEq s1 st1 hb1]
    apply lenFilter_le_of_imp
    intro kv hmemr hkv
    have h2 : s2 ≤ kv.2 := by simpa using hkv
    simpa using le_trans h12 h2
  · have hsub : allPaths st2.tree ⊆ allPaths st1.tree := by
      intro q hq
      obtain ⟨hne, hp⟩ := (hT2.ap_mem q).1 hq
      exact (hT1.ap_mem q).2 ⟨hne, hasPath_fpBuild_up h12 hb1 hb2 hne hp⟩
    have hlen := length_le_of_nodup_subset hT2.ap_nodup hsub
    rw [hT2.cnt, hT1.cnt]
    omega
  · intro x
    by_cases hck2 : containKey st2.item_header_table x = true
    · have hckT2 : containKey (fpTable0 s2 sets) x = true := by
        rw [← containKey_of_shape hTab2.shape x]
        exact hck2
      have hck1 : containKey st1.item_header_table x = true := by
        rw [containKey_of_shape hTab1.shape x]
        exact containKey_fpTable0_mono sets h12 hckT2
      rw [containKey] at hck2 hck1
      obtain ⟨h2, hl2⟩ := Option.isSome_iff_exists.1 hck2
      obtain ⟨h1, hl1⟩ := Option.isSome_iff_exists.1 hck1
      have hmem2 : (x, h2) ∈ st2.item_header_table :=
        mem_of_alookup_eq_some hl2
      have hmem1 : (x, h1) ∈ st1.item_header_table :=
        mem_of_alookup_eq_some hl1
      have he2 : ptrsOf st2.item_header_table x = h2.pointers :=
        ptrsOf_entry (st_table_keysNodup hb2) hmem2
      have he1 : ptrsOf st1.item_header_table x = h1.pointers :=
        ptrsOf_entry (st_table_keysNodup hb1) hmem1
      have hmemiff : ∀ q, q ∈ h2.pointers ↔ q ∈ h1.pointers := by
        intro q
        rw [← he2, ← he1, hTab2.ptr_mem x q, hTab1.ptr_mem x q]
        constructor
        · rintro ⟨hne, hp, hl⟩
          exact ⟨hne, hasPath_fpBuild_up h12 hb1 hb2 hne hp, hl⟩
        · rintro ⟨hne, hp, hl⟩
          exact ⟨hne, hasPath_fpBuild_down h12 hb1 hb2 hne hl hckT2 hp, hl⟩
      have hnd2 : h2.pointers.Nodup := by
        rw [← he2]
        exact hTab2.ptr_nodup x
      have hnd1 : h1.pointers.Nodup := by
        rw [← he1]
        exact hTab1.ptr_nodup x
      have hfr : ∀ q ∈ h1.pointers,
          freqAt st2.tree q = freqAt st1.tree q := by
        intro q hq
        have hq' : q ∈ ptrsOf st1.item_header_table x := by
          rw [he1]
          exact hq
        obtain ⟨hne, hp, hl⟩ := (hTab1.ptr_mem x q).1 hq'
        exact freqAt_fpBuild_eq h12 hb1 hb2 hne hl hckT2
      rw [cpbSize_entry hb2 hmem2, cpbSize_entry hb1 hmem1]
      exact condBaseFor_le st1.tree st2.tree s1 s2 h1 h2 h12 hmemiff hnd1
        hnd2 hfr
    · have hck2' : containKey st2.item_header_table x = false := by
        cases hc : containKey st2.item_header_table x
        · rfl
        · exact absurd hc hck2
      rw [cpbSize_absent hb2 hck2']
      exact Nat.zero_le _

/-- Witness for C8: the reference input with `min_support` 3 versus 4. -/
theorem claimC8_witness :
    refState4.item_header_table.length ≤
      refState3.item_header_table.length ∧
    countNodes refState4.tree ≤ countNodes refState3.tree ∧
    ∀ x, cpbSize refState4 x ≤ cpbSize refState3 x :=
  claimC8 refItemSets 3 4 refState3 refState4 (by decide) rfl rfl
